import Mathlib

/-!
Verification of the centy-daemon filesystem state machine.

This file gives a shallow embedding, in Lean 4, of the core data model and
algorithms of the centy daemon (a file-backed issue/document tracker written
in Rust), and proves or refutes a fixed list of specification claims about it.

Modelling conventions, used throughout:

* Rust `String` is modelled by Lean `String`; where parametric reasoning over
  characters is needed, functions work on `String.data : List Char`.
  Rust string comparison (`cmp`, byte-wise lexicographic on UTF-8) agrees with
  the code-point lexicographic order, which is the linear order on `String`
  provided by Mathlib, so `≤` / `<` on `String` model it faithfully.
* `u32` values are modelled by `Nat`; at the two spots where the source
  increments a `u32` counter (display-number allocation) the wrap-around of
  release-profile Rust is written explicitly as `% 2 ^ 32`, and theorems carry
  the corresponding no-overflow side conditions.
* SHA-256 hex digests are modelled by an injective content fingerprint
  (the content itself): every use of a hash in the source is an equality
  comparison, and collision freedom is the standing assumption of the code.
* `Vec::sort_by` is a stable sort; any two stable sorts by the same total
  comparator compute the same list, so it is modelled by stable insertion
  sort (`insSortBy` below), for which the needed lemmas are proved directly.
* The clock (`now_iso`) and the UUID generator are impure; they are modelled
  by threading an explicit `now : String` argument, resp. an explicit list of
  random bytes, through the embedded operations.
* The filesystem is modelled explicitly: the contents of a `.centy/` folder
  are an association list from slash-separated relative paths (directories
  carrying a trailing slash, as produced by the folder scan in the source) to
  entries that are either directories or files with string contents.
-/

namespace Centy

/-! ## A stable sort (model of `Vec::sort_by`) -/

/-- Insert an element into a list so that it lands after every element that
compares less-or-equal to it; the insertion step of a stable insertion sort. -/
def insOrd (le : α → α → Bool) (x : α) : List α → List α
  | [] => [x]
  | y :: ys => if le x y then x :: y :: ys else y :: insOrd le x ys

/-- Stable insertion sort; extensionally equal to any stable sort by the same
total comparator, hence a faithful model of Rust `sort_by`. -/
def insSortBy (le : α → α → Bool) : List α → List α
  | [] => []
  | x :: xs => insOrd le x (insSortBy le xs)

theorem insOrd_perm (le : α → α → Bool) (x : α) (l : List α) :
    (insOrd le x l).Perm (x :: l) := by
  induction l with
  | nil => simp [insOrd]
  | cons y ys ih =>
    simp only [insOrd]
    by_cases h : le x y
    · simp [h]
    · simp only [h, if_false]
      exact (List.Perm.cons y ih).trans (List.Perm.swap x y ys)

theorem insSortBy_perm (le : α → α → Bool) (l : List α) :
    (insSortBy le l).Perm l := by
  induction l with
  | nil => simp [insSortBy]
  | cons x xs ih =>
    exact (insOrd_perm le x (insSortBy le xs)).trans (List.Perm.cons x ih)

theorem mem_insSortBy (le : α → α → Bool) (l : List α) (a : α) :
    a ∈ insSortBy le l ↔ a ∈ l :=
  (insSortBy_perm le l).mem_iff

theorem length_insSortBy (le : α → α → Bool) (l : List α) :
    (insSortBy le l).length = l.length :=
  (insSortBy_perm le l).length_eq

/-- Sortedness of the insertion step, assuming the comparator total and
transitive. -/
theorem insOrd_pairwise (le : α → α → Bool)
    (htot : ∀ a b, le a b = true ∨ le b a = true)
    (htrans : ∀ a b c, le a b = true → le b c = true → le a c = true)
    (x : α) (l : List α) (hl : l.Pairwise (fun a b => le a b = true)) :
    (insOrd le x l).Pairwise (fun a b => le a b = true) := by
  induction l with
  | nil => simp [insOrd]
  | cons y ys ih =>
    rw [List.pairwise_cons] at hl
    obtain ⟨hy, hys⟩ := hl
    simp only [insOrd]
    by_cases h : le x y = true
    · rw [if_pos h]
      refine List.Pairwise.cons ?_ (List.Pairwise.cons hy hys)
      intro b hb
      rcases List.mem_cons.mp hb with hb | hb
      · exact hb ▸ h
      · exact htrans x y b h (hy b hb)
    · rw [if_neg h]
      refine List.Pairwise.cons ?_ (ih hys)
      intro b hb
      rw [(insOrd_perm le x ys).mem_iff] at hb
      rcases List.mem_cons.mp hb with hb | hb
      · rw [hb]
        rcases htot x y with h1 | h1
        · exact absurd h1 h
        · exact h1
      · exact hy b hb

theorem insSortBy_pairwise (le : α → α → Bool)
    (htot : ∀ a b, le a b = true ∨ le b a = true)
    (htrans : ∀ a b c, le a b = true → le b c = true → le a c = true)
    (l : List α) :
    (insSortBy le l).Pairwise (fun a b => le a b = true) := by
  induction l with
  | nil => simp [insSortBy]
  | cons x xs ih => exact insOrd_pairwise le htot htrans x _ ih

/-- Description of the head of stable insertion sort: the first element of the
input attaining the minimum, computed from the right. -/
def firstMinBy (le : α → α → Bool) : List α → Option α
  | [] => none
  | x :: xs =>
    match firstMinBy le xs with
    | none => some x
    | some m => some (if le x m then x else m)

theorem insOrd_head (le : α → α → Bool) (x : α) (l : List α) :
    (insOrd le x l).head? =
      match l.head? with
      | none => some x
      | some y => some (if le x y then x else y) := by
  cases l with
  | nil => rfl
  | cons y ys => by_cases h : le x y = true <;> simp [insOrd, h]

/-- Head of the stable sort is the first minimum of the input list. -/
theorem insSortBy_head (le : α → α → Bool) (l : List α) :
    (insSortBy le l).head? = firstMinBy le l := by
  induction l with
  | nil => rfl
  | cons x xs ih =>
    simp only [insSortBy, firstMinBy, insOrd_head, ih]

theorem firstMinBy_mem (le : α → α → Bool) :
    ∀ (l : List α) (m : α), firstMinBy le l = some m → m ∈ l := by
  intro l
  induction l with
  | nil => intro m h; simp [firstMinBy] at h
  | cons x xs ih =>
    intro m h
    simp only [firstMinBy] at h
    cases hm : firstMinBy le xs with
    | none =>
      rw [hm] at h
      simp only [Option.some.injEq] at h
      rw [← h]
      exact List.mem_cons_self x xs
    | some m0 =>
      rw [hm] at h
      simp only [Option.some.injEq] at h
      by_cases hle : le x m0 = true
      · rw [if_pos hle] at h
        rw [← h]
        exact List.mem_cons_self x xs
      · rw [if_neg hle] at h
        rw [← h]
        exact List.mem_cons_of_mem x (ih m0 hm)

theorem firstMinBy_min (le : α → α → Bool)
    (htot : ∀ a b, le a b = true ∨ le b a = true)
    (htrans : ∀ a b c, le a b = true → le b c = true → le a c = true) :
    ∀ (l : List α) (m : α), firstMinBy le l = some m →
    ∀ y ∈ l, le m y = true := by
  intro l
  induction l with
  | nil => intro m h; simp [firstMinBy] at h
  | cons x xs ih =>
    intro m h
    simp only [firstMinBy] at h
    have hrefl : ∀ a : α, le a a = true := by
      intro a; rcases htot a a with h1 | h1 <;> exact h1
    cases hm : firstMinBy le xs with
    | none =>
      rw [hm] at h
      simp only [Option.some.injEq] at h
      rw [← h]
      have hxs : xs = [] := by
        cases xs with
        | nil => rfl
        | cons a as =>
          exfalso
          simp only [firstMinBy] at hm
          cases h2 : firstMinBy le as <;> rw [h2] at hm <;> simp at hm
      subst hxs
      intro y hy
      rcases List.mem_cons.mp hy with hy | hy
      · rw [hy]; exact hrefl x
      · simp at hy
    | some m0 =>
      rw [hm] at h
      simp only [Option.some.injEq] at h
      by_cases hle : le x m0 = true
      · rw [if_pos hle] at h
        rw [← h]
        intro y hy
        rcases List.mem_cons.mp hy with hy | hy
        · rw [hy]; exact hrefl x
        · exact htrans x m0 y hle (ih m0 hm y hy)
      · rw [if_neg hle] at h
        rw [← h]
        intro y hy
        rcases List.mem_cons.mp hy with hy | hy
        · rw [hy]
          rcases htot x m0 with h1 | h1
          · exact absurd h1 hle
          · exact h1
        · exact ih m0 hm y hy

/-- The first minimum is earliest among ties: every element strictly before it
in the list compares strictly greater. -/
theorem firstMinBy_earliest (le : α → α → Bool) :
    ∀ (l : List α) (m : α), firstMinBy le l = some m →
    ∃ l₁ l₂, l = l₁ ++ m :: l₂ ∧ ∀ y ∈ l₁, le y m = false := by
  intro l
  induction l with
  | nil => intro m h; simp [firstMinBy] at h
  | cons x xs ih =>
    intro m h
    simp only [firstMinBy] at h
    cases hm : firstMinBy le xs with
    | none =>
      rw [hm] at h
      simp only [Option.some.injEq] at h
      rw [← h]
      exact ⟨[], xs, by simp, by simp⟩
    | some m0 =>
      rw [hm] at h
      simp only [Option.some.injEq] at h
      by_cases hle : le x m0 = true
      · rw [if_pos hle] at h
        rw [← h]
        exact ⟨[], xs, by simp, by simp⟩
      · rw [if_neg hle] at h
        rw [← h]
        obtain ⟨l₁, l₂, heq, hgt⟩ := ih m0 hm
        refine ⟨x :: l₁, l₂, by simp [heq], ?_⟩
        intro y hy
        rcases List.mem_cons.mp hy with hy | hy
        · rw [hy]
          simp only [Bool.not_eq_true] at hle
          exact hle
        · exact hgt y hy

/-! ## Decimal formatting and parsing (models of u32 Display and FromStr) -/

/-- Character for a single decimal digit. -/
def digitChar (d : Nat) : Char := Char.ofNat (48 + d)

/-- Decimal representation of a natural number, most significant digit first;
the model of formatting a u32 with `{}`. -/
def natToChars (n : Nat) : List Char :=
  if _h : n < 10 then [digitChar n]
  else natToChars (n / 10) ++ [digitChar (n % 10)]
termination_by n
decreasing_by exact Nat.div_lt_self (by omega) (by omega)

/-- Digit-accumulation loop of integer parsing. -/
def parseDigits : List Char → Nat → Option Nat
  | [], acc => some acc
  | c :: cs, acc =>
    if c.isDigit then parseDigits cs (acc * 10 + (c.toNat - 48)) else none

/-- Cardinality of u32. -/
def U32_MOD : Nat := 4294967296

/-- Drop one leading plus sign, as Rust integer parsing does. -/
def stripPlus (cs : List Char) : List Char :=
  match cs with
  | c :: rest => if c = '+' then rest else c :: rest
  | [] => []

/-- Model of Rust u32 FromStr: an optional leading plus sign, then one or more
ascii digits, rejecting values above u32 MAX. The overflow check is applied to
the final value; the accumulator is nondecreasing, so this agrees with the
per-step check of the real parser. -/
def parse_u32 (cs : List Char) : Option Nat :=
  match stripPlus cs with
  | [] => none
  | d :: ds =>
    match parseDigits (d :: ds) 0 with
    | some v => if v < U32_MOD then some v else none
    | none => none

theorem digitChar_isDigit {d : Nat} (h : d < 10) : (digitChar d).isDigit = true := by
  interval_cases d <;> decide

theorem digitChar_toNat {d : Nat} (h : d < 10) : (digitChar d).toNat - 48 = d := by
  interval_cases d <;> decide

theorem digitChar_ne_plus {d : Nat} (h : d < 10) : digitChar d ≠ '+' := by
  interval_cases d <;> decide

theorem parseDigits_append (a b : List Char) :
    ∀ (acc v : Nat), parseDigits a acc = some v →
    parseDigits (a ++ b) acc = parseDigits b v := by
  induction a with
  | nil =>
    intro acc v h
    simp only [parseDigits, Option.some.injEq] at h
    simp [h]
  | cons c cs ih =>
    intro acc v h
    simp only [parseDigits, List.cons_append] at h ⊢
    by_cases hc : c.isDigit = true
    · rw [if_pos hc] at h ⊢
      exact ih _ _ h
    · rw [if_neg hc] at h
      exact absurd h (by simp)

theorem natToChars_shape (n : Nat) :
    ∃ c cs, natToChars n = c :: cs ∧ ∃ d, d < 10 ∧ c = digitChar d := by
  induction n using Nat.strong_induction_on with
  | _ n ih =>
    by_cases h : n < 10
    · exact ⟨digitChar n, [], by rw [natToChars, dif_pos h], n, h, rfl⟩
    · obtain ⟨c, cs, heq, hd⟩ := ih (n / 10) (Nat.div_lt_self (by omega) (by omega))
      refine ⟨c, cs ++ [digitChar (n % 10)], ?_, hd⟩
      rw [natToChars, dif_neg h, heq]
      simp

theorem parseDigits_natToChars (n : Nat) :
    ∀ acc, parseDigits (natToChars n) acc =
      some (acc * 10 ^ (natToChars n).length + n) := by
  induction n using Nat.strong_induction_on with
  | _ n ih =>
    intro acc
    by_cases h : n < 10
    · rw [natToChars, dif_pos h]
      simp [parseDigits, digitChar_isDigit h, digitChar_toNat h]
    · rw [natToChars, dif_neg h]
      have h0 : (10 : Nat) > 0 := by omega
      have hlt : n / 10 < n := Nat.div_lt_self (by omega) (by omega)
      have h1 := ih (n / 10) hlt acc
      rw [parseDigits_append _ _ _ _ h1]
      have hm : n % 10 < 10 := Nat.mod_lt _ h0
      simp only [parseDigits, digitChar_isDigit hm, if_true, digitChar_toNat hm,
        List.length_append, List.length_cons, List.length_nil]
      have hpow : 10 ^ ((natToChars (n / 10)).length + (0 + 1)) =
          10 ^ (natToChars (n / 10)).length * 10 := by
        rw [Nat.zero_add, pow_succ]
      rw [hpow, ← mul_assoc]
      simp only [Option.some.injEq]
      generalize acc * 10 ^ (natToChars (n / 10)).length = A
      omega

/-- Round trip: parsing the decimal representation of n recovers n, for values
in u32 range. -/
theorem parse_u32_natToChars {n : Nat} (h : n < U32_MOD) :
    parse_u32 (natToChars n) = some n := by
  obtain ⟨c, cs, heq, d, hd, hc⟩ := natToChars_shape n
  have hne : c ≠ '+' := hc ▸ digitChar_ne_plus hd
  have hparse := parseDigits_natToChars n 0
  rw [heq] at hparse ⊢
  simp only [parse_u32, stripPlus, if_neg hne]
  rw [hparse]
  simp [h]

/-! ## Priority model (source: src/issue/priority.rs) -/

/-- Lowercasing, the model of str::to_lowercase (the inputs compared in this
development are ASCII, where per-character lowering is exact). -/
def toLowerChars (cs : List Char) : List Char := cs.map Char.toLower

/-- Validation from validate_priority: in range iff 1 <= p <= max_levels. -/
def validate_priority (priority max_levels : Nat) : Bool :=
  !(priority < 1 || priority > max_levels)

/-- Default (middle) priority; 0 levels falls back to 1. -/
def default_priority (priority_levels : Nat) : Nat :=
  if priority_levels = 0 then 1 else (priority_levels + 1) / 2

/-- Human-readable label for a priority level, by level count. -/
def priority_label (priority max_levels : Nat) : String :=
  if max_levels = 0 ∨ max_levels = 1 then "normal"
  else if max_levels = 2 then
    if priority = 1 then "high" else "low"
  else if max_levels = 3 then
    if priority = 1 then "high" else if priority = 2 then "medium" else "low"
  else if max_levels = 4 then
    if priority = 1 then "critical" else if priority = 2 then "high"
    else if priority = 3 then "medium" else "low"
  else String.mk ('P' :: natToChars priority)

/-- Strip one leading P (either case) from a label, as the fallback arm of
label_to_priority does before numeric parsing. -/
def stripPChar (cs : List Char) : Option (List Char) :=
  match cs with
  | c :: rest => if c = 'P' ∨ c = 'p' then some rest else none
  | [] => none

/-- Conversion of a string label to a numeric priority; None when the label is
not recognized. -/
def label_to_priority (label : String) (max_levels : Nat) : Option Nat :=
  let lower := toLowerChars label.data
  if lower = "critical".data ∨ lower = "urgent".data then some 1
  else if lower = "high".data then
    if 4 ≤ max_levels then some 2 else some 1
  else if lower = "medium".data ∨ lower = "normal".data then
    some (default_priority max_levels)
  else if lower = "low".data then some max_levels
  else
    match stripPChar label.data with
    | some stripped => parse_u32 stripped
    | none => parse_u32 label.data

/-- Migration of a legacy string priority, falling back to the default. -/
def migrate_string_priority (s : String) (max_levels : Nat) : Nat :=
  (label_to_priority s max_levels).getD (default_priority max_levels)

/-- Hard-coded level count used by metadata deserialization (issue/metadata.rs). -/
def DEFAULT_PRIORITY_LEVELS : Nat := 3

/-- Model of the string case of the metadata.json priority deserializer: a
legacy string priority is migrated with the hard-coded DEFAULT_PRIORITY_LEVELS;
the project configuration is never consulted. -/
def deserialize_priority_string (s : String) : Nat :=
  migrate_string_priority s DEFAULT_PRIORITY_LEVELS

/-! ## Manifest model (source: src/manifest) -/

inductive ManagedFileType
  | file
  | directory
deriving DecidableEq, Repr

structure ManagedFile where
  path : String
  hash : String
  version : String
  created_at : String
  file_type : ManagedFileType
deriving DecidableEq, Repr

structure CentyManifest where
  schema_version : Nat
  centy_version : String
  created_at : String
  updated_at : String
  managed_files : List ManagedFile
deriving DecidableEq, Repr

/-- Daemon version constant from utils/mod.rs. -/
def CENTY_VERSION : String := "0.1.0"

/-- Fresh empty manifest (create_manifest), at clock reading now. -/
def create_manifest (now : String) : CentyManifest :=
  { schema_version := 1
    centy_version := CENTY_VERSION
    created_at := now
    updated_at := now
    managed_files := [] }

/-- Lexicographic comparison of character lists by code point: the order Rust
string cmp implements (byte-wise on UTF-8, which agrees with code-point order).
Written structurally so that concrete instances evaluate in the kernel. -/
def charListLe : List Char → List Char → Bool
  | [], _ => true
  | _ :: _, [] => false
  | a :: as, b :: bs =>
    if a < b then true else if b < a then false else charListLe as bs

theorem charListLe_total (a b : List Char) :
    charListLe a b = true ∨ charListLe b a = true := by
  induction a generalizing b with
  | nil => exact Or.inl rfl
  | cons x xs ih =>
    cases b with
    | nil => exact Or.inr rfl
    | cons y ys =>
      by_cases h1 : x < y
      · left
        simp [charListLe, h1]
      · by_cases h2 : y < x
        · right
          simp [charListLe, h2]
        · have hxy : ¬ y < x := h2
          rcases ih ys with h | h
          · left
            simp [charListLe, h1, h2, h]
          · right
            simp [charListLe, h1, h2, h]

theorem charListLe_iff_not_lex (a b : List Char) :
    charListLe a b = true ↔ ¬ List.Lex (· < ·) b a := by
  induction a generalizing b with
  | nil =>
    cases b with
    | nil => simp [charListLe]
    | cons y ys =>
      simp only [charListLe, true_iff]
      intro h
      cases h
  | cons x xs ih =>
    cases b with
    | nil =>
      simp only [charListLe]
      constructor
      · intro h; cases h
      · intro h
        exact absurd (List.Lex.nil) h
    | cons y ys =>
      by_cases h1 : x < y
      · simp only [charListLe, if_pos h1, true_iff]
        intro h
        cases h with
        | rel h2 => exact absurd h1 (asymm h2)
        | cons h2 => exact absurd h1 (lt_irrefl x)
      · by_cases h2 : y < x
        · simp only [charListLe, if_neg h1, if_pos h2]
          constructor
          · intro h
            exact absurd h (by simp)
          · intro h
            exact absurd (List.Lex.rel h2) h
        · have hxy : x = y := le_antisymm (not_lt.mp h2) (not_lt.mp h1)
          subst hxy
          simp only [charListLe, if_neg h1, if_neg h2]
          rw [ih ys]
          constructor
          · intro h hc
            cases hc with
            | rel h3 => exact absurd h3 (lt_irrefl x)
            | cons h3 => exact h h3
          · intro h hc
            exact h (List.Lex.cons hc)

/-- Bridge to the standard string order: the structural comparison agrees
with the Mathlib linear order on String. -/
theorem charListLe_iff_le (a b : List Char) :
    charListLe a b = true ↔ String.mk a ≤ String.mk b := by
  rw [charListLe_iff_not_lex]
  have hlt : (String.mk b < String.mk a) ↔ List.Lex (· < ·) b a := by
    rw [String.lt_iff_toList_lt]
    exact Iff.rfl
  constructor
  · intro h
    rw [← not_lt]
    intro hc
    exact h (hlt.mp hc)
  · intro h
    rw [← not_lt] at h
    intro hc
    exact h (hlt.mpr hc)

theorem charListLe_le {s t : String} (h : charListLe s.data t.data = true) :
    s ≤ t := by
  have := (charListLe_iff_le s.data t.data).mp h
  exact this

theorem le_charListLe {s t : String} (h : s ≤ t) :
    charListLe s.data t.data = true := by
  exact (charListLe_iff_le s.data t.data).mpr h

theorem charListLe_trans {a b c : List Char} (h1 : charListLe a b = true)
    (h2 : charListLe b c = true) : charListLe a c = true := by
  rw [charListLe_iff_le] at h1 h2 ⊢
  exact le_trans h1 h2

/-- Path comparator used when persisting. -/
def pathLe (a b : ManagedFile) : Bool := charListLe a.path.data b.path.data

/-- Persisted form of a manifest (write_manifest): a copy whose managed_files
are stably sorted by path. -/
def write_manifest (manifest : CentyManifest) : CentyManifest :=
  { manifest with managed_files := insSortBy pathLe manifest.managed_files }

/-- Insert-or-replace of a managed file (add_file_to_manifest): drop any entry
with the same path, append the new one, touch updated_at. -/
def add_file_to_manifest (now : String) (manifest : CentyManifest)
    (file : ManagedFile) : CentyManifest :=
  { manifest with
    managed_files :=
      manifest.managed_files.filter (fun f => f.path != file.path) ++ [file]
    updated_at := now }

/-- Lookup of a managed file by path (find_managed_file). -/
def find_managed_file (manifest : CentyManifest) (path : String) :
    Option ManagedFile :=
  manifest.managed_files.find? (fun f => f.path == path)

/-- Construction of a manifest entry (create_managed_file). -/
def create_managed_file (now : String) (path hash : String)
    (file_type : ManagedFileType) : ManagedFile :=
  { path := path
    hash := hash
    version := CENTY_VERSION
    created_at := now
    file_type := file_type }

/-- The manifest mutations the daemon performs across issue and doc CRUD and
reconciliation: an upsert via add_file_to_manifest, or a retain with an
arbitrary keep predicate (covering the delete paths, which retain by path
inequality or by path-prefix exclusion). -/
inductive ManifestOp
  | upsert (now : String) (file : ManagedFile)
  | retainFiles (keep : ManagedFile → Bool) (now : String)

def applyOp (m : CentyManifest) : ManifestOp → CentyManifest
  | .upsert now f => add_file_to_manifest now m f
  | .retainFiles keep now =>
    { m with managed_files := m.managed_files.filter keep, updated_at := now }

def applyOps (m : CentyManifest) (ops : List ManifestOp) : CentyManifest :=
  ops.foldl applyOp m

/-- Uniqueness invariant M1: no two manifest entries share a path. -/
def pathsNodup (m : CentyManifest) : Prop :=
  (m.managed_files.map (fun f => f.path)).Nodup

theorem pathsNodup_applyOp {m : CentyManifest} (h : pathsNodup m)
    (op : ManifestOp) : pathsNodup (applyOp m op) := by
  cases op with
  | upsert now f =>
    unfold pathsNodup applyOp add_file_to_manifest at *
    simp only [List.map_append, List.map_cons, List.map_nil]
    rw [List.nodup_append]
    refine ⟨?_, by simp, ?_⟩
    · exact (List.Sublist.map _ (List.filter_sublist _)).nodup h
    · intro a ha
      simp only [List.mem_map, List.mem_filter] at ha
      obtain ⟨g, ⟨_, hne⟩, rfl⟩ := ha
      simp only [bne_iff_ne, ne_eq] at hne
      simp [hne]
  | retainFiles keep now =>
    unfold pathsNodup applyOp at *
    exact (List.Sublist.map _ (List.filter_sublist _)).nodup h

theorem pathsNodup_applyOps {m : CentyManifest} (h : pathsNodup m)
    (ops : List ManifestOp) : pathsNodup (applyOps m ops) := by
  induction ops generalizing m with
  | nil => exact h
  | cons op ops ih => exact ih (pathsNodup_applyOp h op)

theorem pathsNodup_create_manifest (now : String) :
    pathsNodup (create_manifest now) := by
  simp [pathsNodup, create_manifest]

theorem pathLe_total (a b : ManagedFile) : pathLe a b = true ∨ pathLe b a = true :=
  charListLe_total a.path.data b.path.data

theorem pathLe_trans (a b c : ManagedFile) (h1 : pathLe a b = true)
    (h2 : pathLe b c = true) : pathLe a c = true :=
  charListLe_trans h1 h2

/-- The persisted file list is sorted by path. -/
theorem write_manifest_sorted (m : CentyManifest) :
    (write_manifest m).managed_files.Pairwise (fun a b => a.path ≤ b.path) := by
  have h := insSortBy_pairwise pathLe pathLe_total pathLe_trans m.managed_files
  unfold write_manifest
  refine h.imp ?_
  intro a b hab
  exact charListLe_le hab

/-- The persisted file list keeps the uniqueness invariant. -/
theorem write_manifest_nodup {m : CentyManifest} (h : pathsNodup m) :
    ((write_manifest m).managed_files.map (fun f => f.path)).Nodup := by
  unfold write_manifest
  exact ((insSortBy_perm pathLe m.managed_files).map _).nodup_iff.mpr h

/-! ## Issue identity (source: src/issue/id.rs, uuid crate) -/

/-- Hexadecimal digit test (either case), as uuid parsing accepts. -/
def isHexChar (c : Char) : Bool :=
  c.isDigit || ('a' ≤ c && c ≤ 'f') || ('A' ≤ c && c ≤ 'F')

/-- Consume exactly n hexadecimal digits, returning the rest of the input. -/
def hexRun : Nat → List Char → Option (List Char)
  | 0, cs => some cs
  | _ + 1, [] => none
  | n + 1, c :: cs => if isHexChar c then hexRun n cs else none

/-- Hyphenated 8-4-4-4-12 uuid format check. -/
def isUuidHyphenated (cs : List Char) : Bool :=
  match hexRun 8 cs with
  | some ('-' :: r1) =>
    match hexRun 4 r1 with
    | some ('-' :: r2) =>
      match hexRun 4 r2 with
      | some ('-' :: r3) =>
        match hexRun 4 r3 with
        | some ('-' :: r4) =>
          match hexRun 12 r4 with
          | some [] => true
          | _ => false
        | _ => false
      | _ => false
    | _ => false
  | _ => false

/-- Plain 32-hex-digit uuid format check. -/
def isUuidSimple (cs : List Char) : Bool :=
  match hexRun 32 cs with
  | some [] => true
  | _ => false

/-- Model of is_uuid (Uuid::parse_str is-ok), restricted to the hyphenated and
simple formats; the braced and urn forms the uuid crate also accepts cannot
occur as folder names in this code path. -/
def is_uuid (s : String) : Bool :=
  isUuidHyphenated s.data || isUuidSimple s.data

/-- Legacy 4-digit issue folder name check (is_legacy_number). -/
def is_legacy_number (s : String) : Bool :=
  s.data.length = 4 && s.data.all Char.isDigit

/-- Valid issue folder name: uuid or legacy 4-digit (is_valid_issue_folder). -/
def is_valid_issue_folder (name : String) : Bool :=
  is_uuid name || is_legacy_number name

/-- Lowercase hexadecimal digit for a value below 16, as uuid formatting
emits. -/
def hexDigitChar (d : Nat) : Char :=
  if d < 10 then digitChar d else Char.ofNat (87 + d)

/-- Two lowercase hex digits of a byte. -/
def byteHex (b : Nat) : List Char := [hexDigitChar (b / 16), hexDigitChar (b % 16)]

/-- Model of Uuid::new_v4 followed by to_string: sixteen random bytes, with
the version nibble of byte 6 forced to 4 and the two variant bits of byte 8
forced to 10, rendered as lowercase hyphenated hex. The random source is the
explicit argument b. -/
def uuid_v4_chars (b : Fin 16 → Nat) : List Char :=
  byteHex (b 0 % 256) ++ byteHex (b 1 % 256) ++ byteHex (b 2 % 256) ++
    byteHex (b 3 % 256) ++
  '-' :: (byteHex (b 4 % 256) ++ byteHex (b 5 % 256)) ++
  '-' :: (byteHex (64 + b 6 % 16) ++ byteHex (b 7 % 256)) ++
  '-' :: (byteHex (128 + b 8 % 64) ++ byteHex (b 9 % 256)) ++
  '-' :: (byteHex (b 10 % 256) ++ byteHex (b 11 % 256) ++ byteHex (b 12 % 256) ++
    byteHex (b 13 % 256) ++ byteHex (b 14 % 256) ++ byteHex (b 15 % 256))

/-- Model of generate_issue_id: a fresh v4 uuid string. -/
def generate_issue_id (b : Fin 16 → Nat) : String :=
  String.mk (uuid_v4_chars b)

/-- A string is a textual v4 uuid: hyphenated format, version character 4 at
index 14, variant character in 8, 9, a, b at index 19. -/
def is_uuid_v4 (s : String) : Bool :=
  isUuidHyphenated s.data &&
  (s.data.drop 14).head? = some '4' &&
  (match (s.data.drop 19).head? with
   | some c => c = '8' ∨ c = '9' ∨ c = 'a' ∨ c = 'b'
   | none => false)

/-- Hexadecimal digits render to hexadecimal characters. -/
theorem hexDigitChar_isHex {d : Nat} (h : d < 16) : isHexChar (hexDigitChar d) = true := by
  interval_cases d <;> decide

theorem isHex_bytehi (x : Nat) : isHexChar (hexDigitChar (x % 256 / 16)) = true :=
  hexDigitChar_isHex (by omega)

theorem isHex_bytelo (x : Nat) : isHexChar (hexDigitChar (x % 256 % 16)) = true :=
  hexDigitChar_isHex (by omega)

theorem isHex_verhi (x : Nat) : isHexChar (hexDigitChar ((64 + x % 16) / 16)) = true :=
  hexDigitChar_isHex (by omega)

theorem isHex_verlo (x : Nat) : isHexChar (hexDigitChar ((64 + x % 16) % 16)) = true :=
  hexDigitChar_isHex (by omega)

theorem isHex_varhi (x : Nat) : isHexChar (hexDigitChar ((128 + x % 64) / 16)) = true :=
  hexDigitChar_isHex (by omega)

theorem isHex_varlo (x : Nat) : isHexChar (hexDigitChar ((128 + x % 64) % 16)) = true :=
  hexDigitChar_isHex (by omega)

theorem isUuidHyphenated_uuid_v4 (b : Fin 16 → Nat) :
    isUuidHyphenated (uuid_v4_chars b) = true := by
  simp only [uuid_v4_chars, byteHex, List.cons_append, List.nil_append, List.append_assoc]
  simp only [isUuidHyphenated, hexRun, isHex_bytehi, isHex_bytelo, isHex_verhi,
    isHex_verlo, isHex_varhi, isHex_varlo, if_true]

theorem uuid_v4_chars_lin (b : Fin 16 → Nat) :
    uuid_v4_chars b =
      [hexDigitChar (b 0 % 256 / 16), hexDigitChar (b 0 % 256 % 16),
       hexDigitChar (b 1 % 256 / 16), hexDigitChar (b 1 % 256 % 16),
       hexDigitChar (b 2 % 256 / 16), hexDigitChar (b 2 % 256 % 16),
       hexDigitChar (b 3 % 256 / 16), hexDigitChar (b 3 % 256 % 16), '-',
       hexDigitChar (b 4 % 256 / 16), hexDigitChar (b 4 % 256 % 16),
       hexDigitChar (b 5 % 256 / 16), hexDigitChar (b 5 % 256 % 16), '-',
       hexDigitChar ((64 + b 6 % 16) / 16), hexDigitChar ((64 + b 6 % 16) % 16),
       hexDigitChar (b 7 % 256 / 16), hexDigitChar (b 7 % 256 % 16), '-',
       hexDigitChar ((128 + b 8 % 64) / 16), hexDigitChar ((128 + b 8 % 64) % 16),
       hexDigitChar (b 9 % 256 / 16), hexDigitChar (b 9 % 256 % 16), '-',
       hexDigitChar (b 10 % 256 / 16), hexDigitChar (b 10 % 256 % 16),
       hexDigitChar (b 11 % 256 / 16), hexDigitChar (b 11 % 256 % 16),
       hexDigitChar (b 12 % 256 / 16), hexDigitChar (b 12 % 256 % 16),
       hexDigitChar (b 13 % 256 / 16), hexDigitChar (b 13 % 256 % 16),
       hexDigitChar (b 14 % 256 / 16), hexDigitChar (b 14 % 256 % 16),
       hexDigitChar (b 15 % 256 / 16), hexDigitChar (b 15 % 256 % 16)] := by
  simp only [uuid_v4_chars, byteHex, List.cons_append, List.nil_append, List.append_assoc]

theorem is_uuid_v4_generate (b : Fin 16 → Nat) :
    is_uuid_v4 (generate_issue_id b) = true := by
  unfold is_uuid_v4 generate_issue_id
  rw [Bool.and_eq_true, Bool.and_eq_true]
  refine ⟨⟨isUuidHyphenated_uuid_v4 b, ?_⟩, ?_⟩
  · show decide (((uuid_v4_chars b).drop 14).head? = some (Char.ofNat 52)) = true
    rw [uuid_v4_chars_lin]
    simp only [List.drop_succ_cons, List.drop_zero, List.head?_cons]
    have h4 : (64 + b 6 % 16) / 16 = 4 := by omega
    rw [h4]
    rfl
  · show (match ((String.mk (uuid_v4_chars b)).data.drop 19).head? with
      | some c => decide (c = Char.ofNat 56 ∨ c = Char.ofNat 57 ∨
          c = Char.ofNat 97 ∨ c = Char.ofNat 98)
      | none => false) = true
    show (match ((uuid_v4_chars b).drop 19).head? with
      | some c => decide (c = Char.ofNat 56 ∨ c = Char.ofNat 57 ∨
          c = Char.ofNat 97 ∨ c = Char.ofNat 98)
      | none => false) = true
    rw [uuid_v4_chars_lin]
    simp only [List.drop_succ_cons, List.drop_zero, List.head?_cons]
    have h8 : 8 <= (128 + b 8 % 64) / 16 := by omega
    have h12 : (128 + b 8 % 64) / 16 < 12 := by omega
    generalize hv : (128 + b 8 % 64) / 16 = v at h8 h12 ⊢
    interval_cases v <;> decide

def charsPre : List Char → List Char → Bool
  | [], _ => true
  | _ :: _, [] => false
  | a :: as, b :: bs => a = b && charsPre as bs

def pathHasPre (p s : String) : Bool := charsPre p.data s.data

theorem charsPre_append (p r : List Char) : charsPre p (p ++ r) = true := by
  induction p with
  | nil => rfl
  | cons a as ih => simp [charsPre, ih]

theorem charsPre_rfl (p : List Char) : charsPre p p = true := by
  have h := charsPre_append p []
  simpa using h

theorem str_data_append (s t : String) : (s ++ t).data = s.data ++ t.data := rfl

theorem str_eq_of_data {a b : String} (h : a.data = b.data) : a = b := by
  cases a; cases b; exact congrArg String.mk h

theorem str_ne_append {s t : String} (h : t.data ≠ []) : s ≠ s ++ t := by
  intro he
  have hd : s.data = s.data ++ t.data := by rw [← str_data_append, ← he]
  have hlen := congrArg List.length hd
  rw [List.length_append] at hlen
  have hz : t.data.length = 0 := by omega
  exact h (List.eq_nil_of_length_eq_zero hz)

theorem str_append_ne (s : String) {a b : String} (h : a ≠ b) : s ++ a ≠ s ++ b := by
  intro he
  have hd := congrArg String.data he
  rw [str_data_append, str_data_append] at hd
  exact h (str_eq_of_data (List.append_cancel_left hd))

theorem pathHasPre_self (p : String) : pathHasPre p p = true := charsPre_rfl p.data

theorem pathHasPre_append (p r : String) : pathHasPre p (p ++ r) = true := by
  unfold pathHasPre
  rw [str_data_append]
  exact charsPre_append p.data r.data

theorem length_filter_false {pred : ManagedFile → Bool} {l : List ManagedFile}
    (h : ∀ f ∈ l, pred f = false) : l.filter pred = [] := by
  rw [List.filter_eq_nil_iff]
  intro a ha
  simp [h a ha]

/-! ## Issue metadata (source: src/issue/metadata.rs, src/issue/crud.rs) -/

/-- Stored issue metadata. Custom fields (a JSON map in the source) are
modelled as an association list with stringly values, which is all the claims
consume. -/
structure IssueMetadata where
  display_number : Nat
  status : String
  priority : Nat
  created_at : String
  updated_at : String
  custom_fields : List (String × String)
deriving DecidableEq, Repr

/-- Constructor IssueMetadata::new: both timestamps set to the clock. -/
def IssueMetadata.new (now : String) (display_number : Nat) (status : String)
    (priority : Nat) (custom_fields : List (String × String)) : IssueMetadata :=
  { display_number := display_number
    status := status
    priority := priority
    created_at := now
    updated_at := now
    custom_fields := custom_fields }

/-- Flattened metadata from crud.rs (IssueMetadataFlat): the external view of
an issue; note the type has no display-number field. -/
structure IssueMetadataFlat where
  status : String
  priority : Nat
  created_at : String
  updated_at : String
  custom_fields : List (String × String)
deriving DecidableEq, Repr

/-- Projection performed by read_issue_from_disk in crud.rs: the stored
display number is discarded when building the flat view. -/
def flattenMetadata (m : IssueMetadata) : IssueMetadataFlat :=
  { status := m.status
    priority := m.priority
    created_at := m.created_at
    updated_at := m.updated_at
    custom_fields := m.custom_fields }

/-- Insert-or-replace of one custom field value. -/
def upsertField (l : List (String × String)) (kv : String × String) :
    List (String × String) :=
  l.filter (fun p => p.1 != kv.1) ++ [kv]

/-- Merge of update options into current custom fields (merge, not replace). -/
def mergeFields (cur upd : List (String × String)) : List (String × String) :=
  upd.foldl upsertField cur

/-- The metadata written back by update_issue (crud.rs lines 206 to 215).
The struct literal in the source fills status, priority, created_at,
updated_at and custom_fields from the flat view and the options; it provides
no display_number (the flat view has already discarded the stored one), so the
written value is the backward-compatibility default 0 of the field. -/
def update_issue_metadata (now : String) (current : IssueMetadataFlat)
    (new_status : Option String) (new_priority : Option Nat)
    (new_custom : List (String × String)) : IssueMetadata :=
  { display_number := 0
    status := new_status.getD current.status
    priority := new_priority.getD current.priority
    created_at := current.created_at
    updated_at := now
    custom_fields := mergeFields current.custom_fields new_custom }

/-- The folder filter applied by list_issues in crud.rs: a directory is
considered only when its name parses as a u32 (the UUID folders produced by
create_issue never do). -/
def list_issues_accepts (name : String) : Bool :=
  (parse_u32 name.data).isSome

/-! ## Display number reconciliation (source: src/issue/reconcile.rs) -/

/-- Per-issue data collected by the reconciliation scan. -/
structure IssueInfo where
  folder_name : String
  display_number : Nat
  created_at : String
deriving DecidableEq, Repr

/-- Wrapping u32 increment (release-profile Rust semantics). -/
def u32add1 (n : Nat) : Nat := (n + 1) % U32_MOD

/-- Maximum display number over the scanned issues, 0 when there are none. -/
def maxDisplay (issues : List IssueInfo) : Nat :=
  issues.foldr (fun i m => max i.display_number m) 0

/-- Group of issues carrying a given display number. -/
def groupOf (issues : List IssueInfo) (d : Nat) : List IssueInfo :=
  issues.filter (fun i => i.display_number == d)

/-- Comparator used to sort a conflicting group: created_at ascending. -/
def createdLe (a b : IssueInfo) : Bool :=
  charListLe a.created_at.data b.created_at.data

/-- The distinct display numbers, enumerated in a fixed order. The HashMap
iteration order of the source is unspecified; every property proved below is
independent of the enumeration order, as it must be for the source. -/
def keysOf (issues : List IssueInfo) : List Nat :=
  (issues.map (fun i => i.display_number)).dedup

/-- Allocation of consecutive fresh numbers to folder names, returning the
reassignment pairs together with the final counter. -/
def assignFresh : List String → Nat → List (String × Nat) × Nat
  | [], next => ([], next)
  | n :: rest, next =>
    let t := assignFresh rest (u32add1 next)
    ((n, next) :: t.1, t.2)

/-- The duplicate-processing loop of reconcile_display_numbers: singleton
groups are skipped (including a singleton zero group), a zero group of two or
more has every member reassigned, and any other conflicting group is stably
sorted by created_at with every member but the first reassigned. -/
def processKeys (issues : List IssueInfo) : List Nat → Nat → List (String × Nat)
  | [], _ => []
  | d :: ds, next =>
    let group := groupOf issues d
    if group.length ≤ 1 then processKeys issues ds next
    else if d = 0 then
      let a := assignFresh (group.map (fun i => i.folder_name)) next
      a.1 ++ processKeys issues ds a.2
    else
      let sorted := insSortBy createdLe group
      let a := assignFresh ((sorted.drop 1).map (fun i => i.folder_name)) next
      a.1 ++ processKeys issues ds a.2

/-- Count of fresh numbers the loop will allocate; used to state the
no-overflow side condition. -/
def freshCount (issues : List IssueInfo) : List Nat → Nat
  | [] => 0
  | d :: ds =>
    let group := groupOf issues d
    if group.length ≤ 1 then freshCount issues ds
    else if d = 0 then group.length + freshCount issues ds
    else (group.length - 1) + freshCount issues ds

/-- The reassignment list computed by reconcile_display_numbers over the
scanned issues: pairs of folder name and new display number. -/
def reconcile_display_numbers (issues : List IssueInfo) : List (String × Nat) :=
  processKeys issues (keysOf issues) (u32add1 (maxDisplay issues))

/-- Display number of an issue after the rewrite loop has been applied. -/
def finalDisplay (issues : List IssueInfo) (i : IssueInfo) : Nat :=
  match (reconcile_display_numbers issues).lookup i.folder_name with
  | some v => v
  | none => i.display_number

/-- Model of get_next_display_number: max over stored display numbers, plus
one (1 when there are no issues). -/
def get_next_display_number (issues : List IssueInfo) : Nat :=
  u32add1 (maxDisplay issues)

/-! ## Lemmas about the reconciliation loop -/

theorem lookup_eq_none_iff {β : Type _} (l : List (String × β)) (name : String) :
    l.lookup name = none ↔ name ∉ l.map Prod.fst := by
  induction l with
  | nil => simp [List.lookup]
  | cons p ps ih =>
    obtain ⟨k, v⟩ := p
    by_cases h : name = k
    · subst h
      simp [List.lookup]
    · have hb : (name == k) = false := by simpa using h
      simp only [List.lookup, hb, List.map_cons, List.mem_cons]
      rw [ih]
      constructor
      · intro h1 h2
        rcases h2 with h2 | h2
        · exact h h2
        · exact h1 h2
      · intro h1 h2
        exact h1 (Or.inr h2)

theorem mem_of_lookup_eq_some {β : Type _} {l : List (String × β)} {name : String} {v : β}
    (h : l.lookup name = some v) : (name, v) ∈ l := by
  induction l with
  | nil => simp [List.lookup] at h
  | cons p ps ih =>
    obtain ⟨k, w⟩ := p
    by_cases hk : name = k
    · subst hk
      simp only [List.lookup, beq_self_eq_true] at h
      have : w = v := by simpa using h
      rw [← this]
      exact List.mem_cons_self _ _
    · have hb : (name == k) = false := by simpa using hk
      simp only [List.lookup, hb] at h
      exact List.mem_cons_of_mem _ (ih h)

theorem two_le_length_of_mem {l : List α} {a b : α} (ha : a ∈ l) (hb : b ∈ l)
    (hab : a ≠ b) : 2 ≤ l.length := by
  match l with
  | [] => simp at ha
  | [x] =>
    simp only [List.mem_singleton] at ha hb
    exact absurd (ha.trans hb.symm) hab
  | x :: y :: rest => simp [Nat.succ_le_succ]

theorem maxDisplay_ge {issues : List IssueInfo} {i : IssueInfo}
    (h : i ∈ issues) : i.display_number ≤ maxDisplay issues := by
  induction issues with
  | nil => simp at h
  | cons x xs ih =>
    simp only [maxDisplay, List.foldr_cons]
    rcases List.mem_cons.mp h with h | h
    · rw [h]; exact Nat.le_max_left _ _
    · exact le_trans (ih h) (Nat.le_max_right _ _)

theorem mem_groupOf {issues : List IssueInfo} {d : Nat} {i : IssueInfo} :
    i ∈ groupOf issues d ↔ i ∈ issues ∧ i.display_number = d := by
  simp [groupOf, List.mem_filter]

theorem assignFresh_fst (names : List String) (next : Nat) :
    (assignFresh names next).1.map Prod.fst = names := by
  induction names generalizing next with
  | nil => simp [assignFresh]
  | cons n rest ih => simp [assignFresh, ih]

theorem assignFresh_spec (names : List String) :
    ∀ next, next + names.length < U32_MOD →
    (assignFresh names next).2 = next + names.length ∧
    (∀ p ∈ (assignFresh names next).1, next ≤ p.2 ∧ p.2 < next + names.length) ∧
    ((assignFresh names next).1.map Prod.snd).Nodup := by
  induction names with
  | nil => intro next _; simp [assignFresh]
  | cons n rest ih =>
    intro next h
    have hlen : (n :: rest).length = rest.length + 1 := by simp
    rw [hlen] at h ⊢
    have hlt : next + 1 < U32_MOD := by omega
    have hadd : u32add1 next = next + 1 := by
      unfold u32add1
      exact Nat.mod_eq_of_lt hlt
    have heq : assignFresh (n :: rest) next =
        ((n, next) :: (assignFresh rest (next + 1)).1,
          (assignFresh rest (next + 1)).2) := by
      simp only [assignFresh, hadd]
    obtain ⟨hfin, hrange, hnd⟩ := ih (next + 1) (by omega)
    rw [heq]
    refine ⟨by rw [hfin]; omega, ?_, ?_⟩
    · intro p hp
      rcases List.mem_cons.mp hp with hp | hp
      · rw [hp]
        exact ⟨Nat.le_refl _, by omega⟩
      · have := hrange p hp
        omega
    · simp only [List.map_cons, List.nodup_cons]
      refine ⟨?_, hnd⟩
      intro hmem
      simp only [List.mem_map] at hmem
      obtain ⟨p, hp, hpv⟩ := hmem
      have := hrange p hp
      omega

theorem processKeys_spec (issues : List IssueInfo) :
    ∀ (ds : List Nat) (next : Nat), next + freshCount issues ds < U32_MOD →
    (∀ p ∈ processKeys issues ds next,
      next ≤ p.2 ∧ p.2 < next + freshCount issues ds) ∧
    ((processKeys issues ds next).map Prod.snd).Nodup := by
  intro ds
  induction ds with
  | nil => intro next _; simp [processKeys]
  | cons d ds ih =>
    intro next h
    simp only [processKeys, freshCount] at h ⊢
    by_cases h1 : (groupOf issues d).length ≤ 1
    · simp only [if_pos h1] at h ⊢
      exact ih next h
    · simp only [if_neg h1] at h ⊢
      by_cases h0 : d = 0
      · simp only [if_pos h0] at h ⊢
        set names := (groupOf issues d).map (fun i => i.folder_name) with hnames
        have hlen : names.length = (groupOf issues d).length := by
          rw [hnames, List.length_map]
        have hov : next + names.length < U32_MOD := by omega
        obtain ⟨hfin, hrange, hnd⟩ := assignFresh_spec names next hov
        obtain ⟨hrange2, hnd2⟩ := ih (assignFresh names next).2 (by rw [hfin]; omega)
        constructor
        · intro p hp
          rcases List.mem_append.mp hp with hp | hp
          · have := hrange p hp; omega
          · have := hrange2 p hp
            rw [hfin] at this
            omega
        · rw [List.map_append, List.nodup_append]
          refine ⟨hnd, hnd2, ?_⟩
          intro v hv
          simp only [List.mem_map] at hv ⊢
          obtain ⟨p, hp, hpv⟩ := hv
          have hb := hrange p hp
          intro hv2
          obtain ⟨q, hq, hqv⟩ := hv2
          have := (hrange2 q hq).1
          rw [hfin] at this
          omega
      · simp only [if_neg h0] at h ⊢
        set names :=
          ((insSortBy createdLe (groupOf issues d)).drop 1).map
            (fun i => i.folder_name) with hnames
        have hlen : names.length = (groupOf issues d).length - 1 := by
          rw [hnames, List.length_map, List.length_drop,
            length_insSortBy]
        have hov : next + names.length < U32_MOD := by omega
        obtain ⟨hfin, hrange, hnd⟩ := assignFresh_spec names next hov
        obtain ⟨hrange2, hnd2⟩ := ih (assignFresh names next).2 (by rw [hfin]; omega)
        constructor
        · intro p hp
          rcases List.mem_append.mp hp with hp | hp
          · have := hrange p hp; omega
          · have := hrange2 p hp
            rw [hfin] at this
            omega
        · rw [List.map_append, List.nodup_append]
          refine ⟨hnd, hnd2, ?_⟩
          intro v hv
          simp only [List.mem_map] at hv ⊢
          obtain ⟨p, hp, hpv⟩ := hv
          have hb := hrange p hp
          intro hv2
          obtain ⟨q, hq, hqv⟩ := hv2
          have := (hrange2 q hq).1
          rw [hfin] at this
          omega

theorem processKeys_fst_sub (issues : List IssueInfo) :
    ∀ (ds : List Nat) (next : Nat) (p : String × Nat),
    p ∈ processKeys issues ds next →
    ∃ d ∈ ds, 2 ≤ (groupOf issues d).length ∧
      ((d = 0 ∧ p.1 ∈ (groupOf issues d).map (fun i => i.folder_name)) ∨
       (d ≠ 0 ∧ p.1 ∈ ((insSortBy createdLe (groupOf issues d)).drop 1).map
          (fun i => i.folder_name))) := by
  intro ds
  induction ds with
  | nil => intro next p hp; simp [processKeys] at hp
  | cons d ds ih =>
    intro next p hp
    simp only [processKeys] at hp
    by_cases h1 : (groupOf issues d).length ≤ 1
    · rw [if_pos h1] at hp
      obtain ⟨d', hd', hrest⟩ := ih next p hp
      exact ⟨d', List.mem_cons_of_mem d hd', hrest⟩
    · rw [if_neg h1] at hp
      by_cases h0 : d = 0
      · rw [if_pos h0] at hp
        rcases List.mem_append.mp hp with hp | hp
        · refine ⟨d, List.mem_cons_self d ds, by omega, Or.inl ⟨h0, ?_⟩⟩
          have : p.1 ∈ ((assignFresh ((groupOf issues d).map
              (fun i => i.folder_name)) next).1.map Prod.fst) :=
            List.mem_map_of_mem Prod.fst hp
          rwa [assignFresh_fst] at this
        · obtain ⟨d', hd', hrest⟩ := ih _ p hp
          exact ⟨d', List.mem_cons_of_mem d hd', hrest⟩
      · rw [if_neg h0] at hp
        rcases List.mem_append.mp hp with hp | hp
        · refine ⟨d, List.mem_cons_self d ds, by omega, Or.inr ⟨h0, ?_⟩⟩
          have : p.1 ∈ ((assignFresh
              (((insSortBy createdLe (groupOf issues d)).drop 1).map
                (fun i => i.folder_name)) next).1.map Prod.fst) :=
            List.mem_map_of_mem Prod.fst hp
          rwa [assignFresh_fst] at this
        · obtain ⟨d', hd', hrest⟩ := ih _ p hp
          exact ⟨d', List.mem_cons_of_mem d hd', hrest⟩

theorem processKeys_covers (issues : List IssueInfo) :
    ∀ (ds : List Nat) (next : Nat) (d : Nat), d ∈ ds →
    2 ≤ (groupOf issues d).length →
    ∀ name : String,
    ((d = 0 ∧ name ∈ (groupOf issues d).map (fun i => i.folder_name)) ∨
     (d ≠ 0 ∧ name ∈ ((insSortBy createdLe (groupOf issues d)).drop 1).map
        (fun i => i.folder_name))) →
    name ∈ (processKeys issues ds next).map Prod.fst := by
  intro ds
  induction ds with
  | nil => intro next d hd; simp at hd
  | cons d' ds ih =>
    intro next d hd h2 name hname
    simp only [processKeys]
    rcases List.mem_cons.mp hd with hd | hd
    · subst hd
      have h1 : ¬ (groupOf issues d).length ≤ 1 := by omega
      rw [if_neg h1]
      rcases hname with ⟨h0, hmem⟩ | ⟨h0, hmem⟩
      · rw [if_pos h0]
        rw [List.map_append]
        refine List.mem_append_left _ ?_
        rw [assignFresh_fst]
        exact hmem
      · rw [if_neg h0]
        rw [List.map_append]
        refine List.mem_append_left _ ?_
        rw [assignFresh_fst]
        exact hmem
    · by_cases h1 : (groupOf issues d').length ≤ 1
      · rw [if_pos h1]
        exact ih next d hd h2 name hname
      · rw [if_neg h1]
        by_cases h0 : d' = 0
        · rw [if_pos h0]
          rw [List.map_append]
          exact List.mem_append_right _ (ih _ d hd h2 name hname)
        · rw [if_neg h0]
          rw [List.map_append]
          exact List.mem_append_right _ (ih _ d hd h2 name hname)

theorem mem_keysOf {issues : List IssueInfo} {i : IssueInfo} (hi : i ∈ issues) :
    i.display_number ∈ keysOf issues := by
  unfold keysOf
  rw [List.mem_dedup]
  exact List.mem_map_of_mem _ hi

theorem createdLe_total (a b : IssueInfo) :
    createdLe a b = true ∨ createdLe b a = true :=
  charListLe_total a.created_at.data b.created_at.data

theorem createdLe_trans (a b c : IssueInfo) (h1 : createdLe a b = true)
    (h2 : createdLe b c = true) : createdLe a c = true :=
  charListLe_trans h1 h2

theorem firstMinBy_isSome (le : α → α → Bool) {l : List α} (h : l ≠ []) :
    ∃ m, firstMinBy le l = some m := by
  cases l with
  | nil => exact absurd rfl h
  | cons x xs =>
    simp only [firstMinBy]
    cases firstMinBy le xs with
    | none => exact ⟨x, rfl⟩
    | some m => exact ⟨_, rfl⟩

/-- After reconciliation, positive display numbers are pairwise distinct
across distinct issues. Hypotheses: the scanned folder names are distinct
(they are directory names), and the u32 allocation counter does not wrap. -/
theorem reconcile_distinct (issues : List IssueInfo)
    (hf : (issues.map (fun i => i.folder_name)).Nodup)
    (hov : maxDisplay issues + 1 + freshCount issues (keysOf issues) < U32_MOD) :
    ∀ i ∈ issues, ∀ j ∈ issues, i ≠ j →
      0 < finalDisplay issues i → 0 < finalDisplay issues j →
      finalDisplay issues i ≠ finalDisplay issues j := by
  intro i hi j hj hij hpi hpj heq
  have hnext0 : u32add1 (maxDisplay issues) = maxDisplay issues + 1 := by
    unfold u32add1
    exact Nat.mod_eq_of_lt (by omega)
  have hovk : u32add1 (maxDisplay issues) + freshCount issues (keysOf issues) <
      U32_MOD := by
    rw [hnext0]; omega
  obtain ⟨hrange, hsnd⟩ := processKeys_spec issues (keysOf issues) _ hovk
  cases hli : (reconcile_display_numbers issues).lookup i.folder_name with
  | none =>
    cases hlj : (reconcile_display_numbers issues).lookup j.folder_name with
    | none =>
      simp only [finalDisplay, hli, hlj] at hpi hpj heq
      have hgi : i ∈ groupOf issues i.display_number := mem_groupOf.mpr ⟨hi, rfl⟩
      have hgj : j ∈ groupOf issues i.display_number :=
        mem_groupOf.mpr ⟨hj, heq.symm⟩
      have h2 : 2 ≤ (groupOf issues i.display_number).length :=
        two_le_length_of_mem hgi hgj hij
      have hd0 : i.display_number ≠ 0 := by omega
      set d := i.display_number with hdd
      set sorted := insSortBy createdLe (groupOf issues d) with hsorted
      have hlen : sorted.length = (groupOf issues d).length := length_insSortBy _ _
      obtain ⟨k, t, hkt⟩ : ∃ k t, sorted = k :: t := by
        cases hs : sorted with
        | nil => rw [hs] at hlen; simp at hlen; omega
        | cons a b => exact ⟨a, b, rfl⟩
      have hmem : ∀ x, x ∈ groupOf issues d → x ∈ k :: t := by
        intro x hx
        rw [← hkt, hsorted, mem_insSortBy]
        exact hx
      have hdrop : sorted.drop 1 = t := by rw [hkt]; rfl
      have hone : i ∈ t ∨ j ∈ t := by
        rcases List.mem_cons.mp (hmem i hgi) with h | h
        · rcases List.mem_cons.mp (hmem j hgj) with h' | h'
          · exact absurd (h.trans h'.symm) hij
          · exact Or.inr h'
        · exact Or.inl h
      have hkd : d ∈ keysOf issues := mem_keysOf hi
      rcases hone with hit | hjt
      · have hnm : i.folder_name ∈ (sorted.drop 1).map
            (fun x => x.folder_name) := by
          rw [hdrop]
          exact List.mem_map_of_mem _ hit
        have hcov := processKeys_covers issues (keysOf issues)
          (u32add1 (maxDisplay issues)) d hkd h2 i.folder_name
          (Or.inr ⟨hd0, hnm⟩)
        exact (lookup_eq_none_iff _ _ |>.mp hli) hcov
      · have hnm : j.folder_name ∈ (sorted.drop 1).map
            (fun x => x.folder_name) := by
          rw [hdrop]
          exact List.mem_map_of_mem _ hjt
        have hcov := processKeys_covers issues (keysOf issues)
          (u32add1 (maxDisplay issues)) d hkd h2 j.folder_name
          (Or.inr ⟨hd0, hnm⟩)
        exact (lookup_eq_none_iff _ _ |>.mp hlj) hcov
    | some vj =>
      simp only [finalDisplay, hli, hlj] at hpi hpj heq
      have hpair := mem_of_lookup_eq_some hlj
      have hr : u32add1 (maxDisplay issues) ≤ vj := (hrange _ hpair).1
      have hmax : i.display_number ≤ maxDisplay issues := maxDisplay_ge hi
      rw [hnext0] at hr
      omega
  | some vi =>
    cases hlj : (reconcile_display_numbers issues).lookup j.folder_name with
    | none =>
      simp only [finalDisplay, hli, hlj] at hpi hpj heq
      have hpair := mem_of_lookup_eq_some hli
      have hr : u32add1 (maxDisplay issues) ≤ vi := (hrange _ hpair).1
      have hmax : j.display_number ≤ maxDisplay issues := maxDisplay_ge hj
      rw [hnext0] at hr
      omega
    | some vj =>
      simp only [finalDisplay, hli, hlj] at heq
      have hpi' := mem_of_lookup_eq_some hli
      have hpj' := mem_of_lookup_eq_some hlj
      have hfne : i.folder_name ≠ j.folder_name := by
        intro hfeq
        exact hij (List.inj_on_of_nodup_map hf hi hj hfeq)
      have hpq : (i.folder_name, vi) = (j.folder_name, vj) :=
        List.inj_on_of_nodup_map hsnd hpi' hpj' heq
      exact hfne (congrArg Prod.fst hpq)

/-- When at least two issues carry the legacy display number 0, the rewrite
loop replaces every zero (and a fresh number is always positive). -/
theorem reconcile_no_zero (issues : List IssueInfo)
    (hov : maxDisplay issues + 1 + freshCount issues (keysOf issues) < U32_MOD)
    (h2 : 2 ≤ (groupOf issues 0).length) :
    ∀ i ∈ issues, 0 < finalDisplay issues i := by
  intro i hi
  have hnext0 : u32add1 (maxDisplay issues) = maxDisplay issues + 1 := by
    unfold u32add1
    exact Nat.mod_eq_of_lt (by omega)
  have hovk : u32add1 (maxDisplay issues) + freshCount issues (keysOf issues) <
      U32_MOD := by
    rw [hnext0]; omega
  obtain ⟨hrange, _⟩ := processKeys_spec issues (keysOf issues) _ hovk
  cases hli : (reconcile_display_numbers issues).lookup i.folder_name with
  | some v =>
    simp only [finalDisplay, hli]
    have hr : u32add1 (maxDisplay issues) ≤ v :=
      (hrange _ (mem_of_lookup_eq_some hli)).1
    rw [hnext0] at hr
    omega
  | none =>
    simp only [finalDisplay, hli]
    by_cases h0 : i.display_number = 0
    · exfalso
      have hgi : i ∈ groupOf issues 0 := mem_groupOf.mpr ⟨hi, h0⟩
      have hk0 : (0 : Nat) ∈ keysOf issues := by
        have := mem_keysOf hi
        rwa [h0] at this
      have hnm : i.folder_name ∈ (groupOf issues 0).map
          (fun x => x.folder_name) := List.mem_map_of_mem _ hgi
      have hcov := processKeys_covers issues (keysOf issues)
        (u32add1 (maxDisplay issues)) 0 hk0 h2 i.folder_name
        (Or.inl ⟨rfl, hnm⟩)
      exact (lookup_eq_none_iff _ _ |>.mp hli) hcov
    · omega

/-- In a conflicting group with positive display number, the issue that keeps
its number is exactly the first minimum of the group by created_at (first in
scan order among ties); every other member is reassigned. -/
theorem reconcile_kept (issues : List IssueInfo)
    (hf : (issues.map (fun i => i.folder_name)).Nodup)
    (d : Nat) (hd : d ≠ 0) (h2 : 2 ≤ (groupOf issues d).length) :
    ∃ k, firstMinBy createdLe (groupOf issues d) = some k ∧
      (reconcile_display_numbers issues).lookup k.folder_name = none ∧
      (∀ j ∈ groupOf issues d, j ≠ k →
        (reconcile_display_numbers issues).lookup j.folder_name ≠ none) := by
  have hgne : groupOf issues d ≠ [] := by
    intro hemp
    rw [hemp] at h2
    simp at h2
  obtain ⟨k, hfm⟩ := firstMinBy_isSome createdLe hgne
  have hkg : k ∈ groupOf issues d := firstMinBy_mem _ _ _ hfm
  have hki : k ∈ issues := (mem_groupOf.mp hkg).1
  have hkd : k.display_number = d := (mem_groupOf.mp hkg).2
  set sorted := insSortBy createdLe (groupOf issues d) with hsorted
  have hhead : sorted.head? = some k := by
    rw [hsorted, insSortBy_head]
    exact hfm
  have hkt : k :: sorted.tail = sorted :=
    List.cons_head?_tail (by rw [hhead]; rfl)
  have hdrop : sorted.drop 1 = sorted.tail := List.drop_one sorted
  have hnodup : sorted.Nodup := by
    rw [hsorted]
    exact ((insSortBy_perm createdLe (groupOf issues d)).nodup_iff).mpr
      ((List.Nodup.of_map _ hf).filter _)
  refine ⟨k, hfm, ?_, ?_⟩
  · rw [lookup_eq_none_iff]
    intro hmemf
    simp only [List.mem_map] at hmemf
    obtain ⟨p, hp, hpk⟩ := hmemf
    obtain ⟨d', hd'm, h2', hcase⟩ := processKeys_fst_sub issues _ _ p hp
    rcases hcase with ⟨hz, hmem⟩ | ⟨hnz, hmem⟩
    · rw [hpk] at hmem
      simp only [List.mem_map] at hmem
      obtain ⟨r, hr, hrk⟩ := hmem
      have hri : r ∈ issues := (mem_groupOf.mp hr).1
      have hrd : r.display_number = d' := (mem_groupOf.mp hr).2
      have hrk2 : r = k := List.inj_on_of_nodup_map hf hri hki hrk
      rw [hrk2, hkd] at hrd
      exact hd (hrd.trans hz)
    · rw [hpk] at hmem
      simp only [List.mem_map] at hmem
      obtain ⟨r, hr, hrk⟩ := hmem
      have hrs : r ∈ insSortBy createdLe (groupOf issues d') :=
        List.mem_of_mem_drop hr
      have hrg : r ∈ groupOf issues d' := (mem_insSortBy _ _ _).mp hrs
      have hri : r ∈ issues := (mem_groupOf.mp hrg).1
      have hrd : r.display_number = d' := (mem_groupOf.mp hrg).2
      have hrk2 : r = k := List.inj_on_of_nodup_map hf hri hki hrk
      have hdd' : d' = d := by
        rw [hrk2, hkd] at hrd
        exact hrd.symm
      rw [hdd'] at hr
      rw [hrk2] at hr
      rw [← hsorted, hdrop] at hr
      have : ¬ (k :: sorted.tail).Nodup := by
        simp only [List.nodup_cons]
        intro hcontra
        exact hcontra.1 hr
      rw [hkt] at this
      exact this hnodup
  · intro j hj hjk
    intro hnone
    have hjs : j ∈ sorted := by
      rw [hsorted, mem_insSortBy]
      exact hj
    have hjt : j ∈ sorted.tail := by
      rw [← hkt] at hjs
      rcases List.mem_cons.mp hjs with h | h
      · exact absurd h hjk
      · exact h
    have hji : j ∈ issues := (mem_groupOf.mp hj).1
    have hkd2 : d ∈ keysOf issues := by
      have := mem_keysOf hji
      rwa [(mem_groupOf.mp hj).2] at this
    have hnm : j.folder_name ∈ (sorted.drop 1).map (fun x => x.folder_name) := by
      rw [hdrop]
      exact List.mem_map_of_mem _ hjt
    have hcov := processKeys_covers issues (keysOf issues)
      (u32add1 (maxDisplay issues)) d hkd2 h2 j.folder_name
      (Or.inr ⟨hd, hnm⟩)
    exact (lookup_eq_none_iff _ _ |>.mp hnone) hcov

/-! ## Managed-file catalog and reconciliation (source: src/reconciliation) -/

/-- Literal README content of the managed-file catalog. -/
def README_CONTENT : String :=
  "# Centy Project\n\nThis folder is managed by [Centy](https://github.com/tupe12334/centy-cli).\n\n## Structure\n\n- `issues/` - Project issues\n- `docs/` - Project documentation\n- `assets/` - Shared assets\n- `templates/` - Custom templates for issues and docs\n\n## Getting Started\n\nCreate a new issue:\n\n```bash\ncenty create issue\n```\n\nView all issues in the `issues/` folder.\n"

/-- Literal templates README content of the managed-file catalog. -/
def TEMPLATES_README_CONTENT : String :=
  "# Templates\n\nThis folder contains templates for creating issues and docs using [Handlebars](https://handlebarsjs.com/) syntax.\n\n## Usage\n\nTo use a template, specify the `template` parameter when creating an issue or doc:\n- Issues: Place templates in `templates/issues/` (e.g., `bug-report.md`)\n- Docs: Place templates in `templates/docs/` (e.g., `api.md`)\n\n## Available Placeholders\n\n### Issue Templates\n| Placeholder | Description |\n|-------------|-------------|\n| `\x7b\x7btitle\x7d\x7d` | Issue title |\n| `\x7b\x7bdescription\x7d\x7d` | Issue description |\n| `\x7b\x7bpriority\x7d\x7d` | Priority number (1 = highest) |\n| `\x7b\x7bpriority_label\x7d\x7d` | Priority label (e.g., \"high\", \"medium\", \"low\") |\n| `\x7b\x7bstatus\x7d\x7d` | Issue status |\n| `\x7b\x7bcreated_at\x7d\x7d` | Creation timestamp |\n| `\x7b\x7bcustom_fields\x7d\x7d` | Map of custom field key-value pairs |\n\n### Doc Templates\n| Placeholder | Description |\n|-------------|-------------|\n| `\x7b\x7btitle\x7d\x7d` | Document title |\n| `\x7b\x7bcontent\x7d\x7d` | Document content |\n| `\x7b\x7bslug\x7d\x7d` | URL-friendly slug |\n| `\x7b\x7bcreated_at\x7d\x7d` | Creation timestamp |\n| `\x7b\x7bupdated_at\x7d\x7d` | Last update timestamp |\n\n## Handlebars Features\n\nTemplates support full Handlebars syntax:\n\n### Conditionals\n```handlebars\n\x7b\x7b#if description\x7d\x7d\n## Description\n\x7b\x7bdescription\x7d\x7d\n\x7b\x7b/if\x7d\x7d\n```\n\n### Loops\n```handlebars\n\x7b\x7b#each custom_fields\x7d\x7d\n- **\x7b\x7b@key\x7d\x7d:** \x7b\x7bthis\x7d\x7d\n\x7b\x7b/each\x7d\x7d\n```\n\n## Example Templates\n\n### Issue Template (`templates/issues/bug-report.md`)\n```handlebars\n# Bug: \x7b\x7btitle\x7d\x7d\n\n**Priority:** \x7b\x7bpriority_label\x7d\x7d | **Status:** \x7b\x7bstatus\x7d\x7d\n\n## Description\n\x7b\x7bdescription\x7d\x7d\n\n\x7b\x7b#if custom_fields\x7d\x7d\n## Additional Info\n\x7b\x7b#each custom_fields\x7d\x7d\n- \x7b\x7b@key\x7d\x7d: \x7b\x7bthis\x7d\x7d\n\x7b\x7b/each\x7d\x7d\n\x7b\x7b/if\x7d\x7d\n```\n\n### Doc Template (`templates/docs/api.md`)\n```handlebars\n---\ntitle: \"\x7b\x7btitle\x7d\x7d\"\nslug: \"\x7b\x7bslug\x7d\x7d\"\n---\n\n# API: \x7b\x7btitle\x7d\x7d\n\n\x7b\x7bcontent\x7d\x7d\n```\n"

structure ManagedFileTemplate where
  file_type : ManagedFileType
  content : Option String
deriving DecidableEq, Repr

/-- The static catalog of managed paths (get_managed_files). The source builds
a HashMap; the association list below records the insertion order, and no
claim depends on the iteration order. -/
def get_managed_files : List (String × ManagedFileTemplate) :=
  [("issues/", ⟨.directory, none⟩),
   ("docs/", ⟨.directory, none⟩),
   ("assets/", ⟨.directory, none⟩),
   ("README.md", ⟨.file, some README_CONTENT⟩),
   ("templates/", ⟨.directory, none⟩),
   ("templates/issues/", ⟨.directory, none⟩),
   ("templates/docs/", ⟨.directory, none⟩),
   ("templates/README.md", ⟨.file, some TEMPLATES_README_CONTENT⟩)]

/-- SHA-256 hex digest of a string, modelled as an injective content
fingerprint (see the header note). -/
def compute_hash (content : String) : String := content

/-- One entry of the scanned .centy folder. -/
inductive DiskEntry
  | directory
  | file (content : String)
deriving DecidableEq, Repr

/-- The .centy folder contents: relative path (directories carry a trailing
slash, as scan_centy_folder produces) paired with the entry. The manifest file
itself is excluded, as the scan excludes it. -/
abbrev Disk := List (String × DiskEntry)

def diskContains (disk : Disk) (path : String) : Bool :=
  disk.any (fun e => e.1 == path)

def diskGet (disk : Disk) (path : String) : Option DiskEntry :=
  (disk.find? (fun e => e.1 == path)).map Prod.snd

/-- Hash of a file on disk; the empty string when the path is absent or a
directory, matching the unwrap_or_default around compute_file_hash. -/
def diskFileHash (disk : Disk) (path : String) : String :=
  match diskGet disk path with
  | some (.file c) => compute_hash c
  | _ => ""

/-- Plan entry (FileInfo in plan.rs). -/
structure FileInfo where
  path : String
  file_type : ManagedFileType
  hash : String
  content_preview : Option String
deriving DecidableEq, Repr

structure ReconciliationPlan where
  to_create : List FileInfo
  to_restore : List FileInfo
  to_reset : List FileInfo
  up_to_date : List FileInfo
  user_files : List FileInfo
deriving DecidableEq, Repr

def emptyPlan : ReconciliationPlan := ⟨[], [], [], [], []⟩

def needs_decisions (p : ReconciliationPlan) : Bool :=
  !p.to_restore.isEmpty || !p.to_reset.isEmpty

/-- Plan entry built from a catalog row. -/
def fileInfoFor (path : String) (t : ManagedFileTemplate) : FileInfo :=
  { path := path
    file_type := t.file_type
    hash := (t.content.map compute_hash).getD ""
    content_preview := t.content.map (fun c => String.mk (c.data.take 100)) }

/-- Categorization of one catalog row by the planner loop in plan.rs. -/
def planStep (disk : Disk) (manifest : Option CentyManifest)
    (path : String) (t : ManagedFileTemplate)
    (plan : ReconciliationPlan) : ReconciliationPlan :=
  let fi := fileInfoFor path t
  let in_manifest := manifest.bind (fun m => find_managed_file m path)
  if diskContains disk path = false then
    if in_manifest.isSome then { plan with to_restore := plan.to_restore ++ [fi] }
    else { plan with to_create := plan.to_create ++ [fi] }
  else
    match t.file_type with
    | .directory => { plan with up_to_date := plan.up_to_date ++ [fi] }
    | .file =>
      match t.content with
      | some expected =>
        if diskFileHash disk path == compute_hash expected then
          { plan with up_to_date := plan.up_to_date ++ [fi] }
        else
          { plan with to_reset :=
              plan.to_reset ++ [{ fi with hash := diskFileHash disk path }] }
      | none => { plan with up_to_date := plan.up_to_date ++ [fi] }

def buildCore (disk : Disk) (manifest : Option CentyManifest) :
    List (String × ManagedFileTemplate) → ReconciliationPlan → ReconciliationPlan
  | [], plan => plan
  | (p, t) :: rest, plan =>
    buildCore disk manifest rest (planStep disk manifest p t plan)

/-- User files: disk paths outside the catalog. -/
def userFilesOf (disk : Disk) : List FileInfo :=
  (disk.filter (fun e => !(get_managed_files.map Prod.fst).contains e.1)).map
    (fun e =>
      match e.2 with
      | .directory =>
        { path := e.1, file_type := .directory, hash := "", content_preview := none }
      | .file c =>
        { path := e.1, file_type := .file, hash := compute_hash c,
          content_preview := none })

/-- The reconciliation planner (build_reconciliation_plan). -/
def build_reconciliation_plan (disk : Disk) (manifest : Option CentyManifest) :
    ReconciliationPlan :=
  let base := buildCore disk manifest get_managed_files emptyPlan
  { base with user_files := base.user_files ++ userFilesOf disk }

/-- User decisions (HashSets in the source, modelled as lists with
membership). -/
structure ReconciliationDecisions where
  restore : List String
  reset : List String

structure ReconciliationResult where
  created : List String
  restored : List String
  reset : List String
  skipped : List String
  manifest : CentyManifest
deriving Repr

/-- Split a character list on slashes (structural model of splitting a path
into segments). -/
def splitSlash : List Char → List (List Char)
  | [] => [[]]
  | c :: cs =>
    if c = '/' then [] :: splitSlash cs
    else
      match splitSlash cs with
      | [] => [[c]]
      | s :: rest => (c :: s) :: rest

/-- Join segments with slashes. -/
def joinSlash : List (List Char) → List Char
  | [] => []
  | [s] => s
  | s :: rest => s ++ '/' :: joinSlash rest

/-- The ancestor directory paths that create_dir_all materializes for a
relative path: one entry per slash-terminated prefix (for a directory path
this includes the path itself). -/
def ancestorDirs (path : String) : List String :=
  let segs := (splitSlash path.data).dropLast
  (List.range segs.length).map
    (fun i => String.mk (joinSlash (segs.take (i + 1)) ++ ['/']))

def diskInsertDir (disk : Disk) (path : String) : Disk :=
  if diskContains disk path then disk else disk ++ [(path, .directory)]

def diskInsertDirs (disk : Disk) (paths : List String) : Disk :=
  paths.foldl diskInsertDir disk

def diskWriteFile (disk : Disk) (path : String) (content : String) : Disk :=
  (disk.filter (fun e => e.1 != path)) ++ [(path, .file content)]

/-- Materialization of one catalog path (create_file in execute.rs): a
directory is created with its ancestors, a file is written with the catalog
content after its parent directories; the manifest entry is upserted. None
models the template-not-found error abort. -/
def create_file (now : String) (disk : Disk) (relative_path : String)
    (templates : List (String × ManagedFileTemplate)) (manifest : CentyManifest) :
    Option (Disk × CentyManifest) :=
  match templates.lookup relative_path with
  | none => none
  | some t =>
    match t.file_type with
    | .directory =>
      some (diskInsertDirs disk (ancestorDirs relative_path),
        add_file_to_manifest now manifest
          (create_managed_file now relative_path "" .directory))
    | .file =>
      let content := t.content.getD ""
      some (diskWriteFile (diskInsertDirs disk (ancestorDirs relative_path))
          relative_path content,
        add_file_to_manifest now manifest
          (create_managed_file now relative_path (compute_hash content) .file))

def processCreates (now : String) (templates : List (String × ManagedFileTemplate)) :
    List FileInfo → Disk → CentyManifest → List String →
    Option (Disk × CentyManifest × List String)
  | [], disk, m, created => some (disk, m, created)
  | fi :: rest, disk, m, created =>
    match create_file now disk fi.path templates m with
    | none => none
    | some (disk2, m2) =>
      processCreates now templates rest disk2 m2 (created ++ [fi.path])

def processRestores (now : String) (templates : List (String × ManagedFileTemplate))
    (decisions : ReconciliationDecisions) (force : Bool) :
    List FileInfo → Disk → CentyManifest → List String → List String →
    Option (Disk × CentyManifest × List String × List String)
  | [], disk, m, restored, skipped => some (disk, m, restored, skipped)
  | fi :: rest, disk, m, restored, skipped =>
    if force || decisions.restore.contains fi.path then
      match create_file now disk fi.path templates m with
      | none => none
      | some (disk2, m2) =>
        processRestores now templates decisions force rest disk2 m2
          (restored ++ [fi.path]) skipped
    else
      processRestores now templates decisions force rest disk m restored
        (skipped ++ [fi.path])

def processResets (now : String) (templates : List (String × ManagedFileTemplate))
    (decisions : ReconciliationDecisions) :
    List FileInfo → Disk → CentyManifest → List String → List String →
    Option (Disk × CentyManifest × List String × List String)
  | [], disk, m, reseted, skipped => some (disk, m, reseted, skipped)
  | fi :: rest, disk, m, reseted, skipped =>
    if decisions.reset.contains fi.path then
      match create_file now disk fi.path templates m with
      | none => none
      | some (disk2, m2) =>
        processResets now templates decisions rest disk2 m2
          (reseted ++ [fi.path]) skipped
    else
      let m2 :=
        match templates.lookup fi.path with
        | some t =>
          add_file_to_manifest now m
            (create_managed_file now fi.path fi.hash t.file_type)
        | none => m
      processResets now templates decisions rest disk m2 reseted
        (skipped ++ [fi.path])

def processUpToDate (now : String) (templates : List (String × ManagedFileTemplate)) :
    List FileInfo → CentyManifest → CentyManifest
  | [], m => m
  | fi :: rest, m =>
    let m2 :=
      match templates.lookup fi.path with
      | some t =>
        add_file_to_manifest now m
          (create_managed_file now fi.path
            ((t.content.map compute_hash).getD "") t.file_type)
      | none => m
    processUpToDate now templates rest m2

/-- The reconciliation executor (execute_reconciliation): load or create the
manifest, build a fresh plan, process the buckets in order, persist the
manifest. None models an abort. -/
def execute_reconciliation (now : String) (disk : Disk)
    (manifest0 : Option CentyManifest) (decisions : ReconciliationDecisions)
    (force : Bool) : Option (Disk × CentyManifest × ReconciliationResult) :=
  let templates := get_managed_files
  let manifest := manifest0.getD (create_manifest now)
  let plan := build_reconciliation_plan disk manifest0
  match processCreates now templates plan.to_create disk manifest [] with
  | none => none
  | some (d1, m1, created) =>
    match processRestores now templates decisions force plan.to_restore d1 m1 [] [] with
    | none => none
    | some (d2, m2, restored, skipped1) =>
      match processResets now templates decisions plan.to_reset d2 m2 [] skipped1 with
      | none => none
      | some (d3, m3, reseted, skipped2) =>
        let m4 := processUpToDate now templates plan.up_to_date m3
        let persisted := write_manifest m4
        some (d3, persisted,
          { created := created, restored := restored, reset := reseted,
            skipped := skipped2, manifest := persisted })

/-! ## Lemmas about the reconciliation planner and executor -/

theorem lookup_isSome_of_mem_fst {β : Type _} {l : List (String × β)}
    {name : String} (h : name ∈ l.map Prod.fst) : (l.lookup name).isSome := by
  cases hl : l.lookup name with
  | none => exact absurd h ((lookup_eq_none_iff l name).mp hl)
  | some v => rfl

theorem diskContains_mem {disk : Disk} {p : String} :
    diskContains disk p = true ↔ ∃ e ∈ disk, e.1 = p := by
  unfold diskContains
  rw [List.any_eq_true]
  constructor
  · rintro ⟨e, he, hep⟩
    exact ⟨e, he, by simpa using hep⟩
  · rintro ⟨e, he, hep⟩
    exact ⟨e, he, by simpa using hep⟩

theorem diskInsertDir_mono {disk : Disk} {p q : String}
    (h : diskContains disk q = true) :
    diskContains (diskInsertDir disk p) q = true := by
  unfold diskInsertDir
  by_cases hc : diskContains disk p
  · rw [if_pos hc]
    exact h
  · rw [if_neg hc]
    rw [diskContains_mem] at h ⊢
    obtain ⟨e, he, hep⟩ := h
    exact ⟨e, by simp [he], hep⟩

theorem diskInsertDir_self {disk : Disk} {p : String} :
    diskContains (diskInsertDir disk p) p = true := by
  unfold diskInsertDir
  by_cases hc : diskContains disk p
  · rw [if_pos hc]
    exact hc
  · rw [if_neg hc]
    rw [diskContains_mem]
    exact ⟨(p, .directory), by simp, rfl⟩

theorem diskInsertDirs_mono {paths : List String} : ∀ {disk : Disk} {q : String},
    diskContains disk q = true →
    diskContains (diskInsertDirs disk paths) q = true := by
  induction paths with
  | nil => intro disk q h; exact h
  | cons p ps ih =>
    intro disk q h
    show diskContains (diskInsertDirs (diskInsertDir disk p) ps) q = true
    exact ih (diskInsertDir_mono h)

theorem diskInsertDirs_contains {paths : List String} : ∀ {disk : Disk} {p : String},
    p ∈ paths → diskContains (diskInsertDirs disk paths) p = true := by
  induction paths with
  | nil => intro disk p h; simp at h
  | cons a ps ih =>
    intro disk p h
    show diskContains (diskInsertDirs (diskInsertDir disk a) ps) p = true
    rcases List.mem_cons.mp h with h | h
    · subst h
      exact diskInsertDirs_mono diskInsertDir_self
    · exact ih h

theorem diskWriteFile_mono {disk : Disk} {p q c : String}
    (h : diskContains disk q = true) :
    diskContains (diskWriteFile disk p c) q = true := by
  by_cases hpq : q = p
  · subst hpq
    rw [diskContains_mem]
    exact ⟨(q, .file c), by simp [diskWriteFile], rfl⟩
  · rw [diskContains_mem] at h ⊢
    obtain ⟨e, he, hep⟩ := h
    refine ⟨e, ?_, hep⟩
    unfold diskWriteFile
    refine List.mem_append_left _ ?_
    rw [List.mem_filter]
    refine ⟨he, ?_⟩
    simp [hep, hpq]

theorem diskWriteFile_self {disk : Disk} {p c : String} :
    diskContains (diskWriteFile disk p c) p = true := by
  rw [diskContains_mem]
  exact ⟨(p, .file c), by simp [diskWriteFile], rfl⟩

/-- Catalog fact: every directory entry of the catalog is its own last
ancestor (its path carries the trailing slash). -/
theorem catalog_dir_self :
    ∀ pt ∈ get_managed_files, pt.2.file_type = ManagedFileType.directory →
    pt.1 ∈ ancestorDirs pt.1 := by
  decide

theorem create_file_total (now : String) (disk : Disk) (m : CentyManifest)
    {rp : String} {templates : List (String × ManagedFileTemplate)}
    (h : (templates.lookup rp).isSome) :
    ∃ d2 m2, create_file now disk rp templates m = some (d2, m2) := by
  unfold create_file
  cases hl : templates.lookup rp with
  | none => rw [hl] at h; simp at h
  | some t =>
    obtain ⟨ft, c⟩ := t
    cases ft with
    | directory => exact ⟨_, _, rfl⟩
    | file => exact ⟨_, _, rfl⟩

theorem create_file_mono {now : String} {disk : Disk} {rp : String}
    {templates : List (String × ManagedFileTemplate)} {m : CentyManifest}
    {d2 : Disk} {m2 : CentyManifest}
    (h : create_file now disk rp templates m = some (d2, m2)) :
    ∀ q, diskContains disk q = true → diskContains d2 q = true := by
  unfold create_file at h
  cases hl : templates.lookup rp with
  | none => rw [hl] at h; exact absurd h (by simp)
  | some t =>
    rw [hl] at h
    obtain ⟨ft, c⟩ := t
    cases ft with
    | directory =>
      simp only [Option.some.injEq, Prod.mk.injEq] at h
      intro q hq
      rw [← h.1]
      exact diskInsertDirs_mono hq
    | file =>
      simp only [Option.some.injEq, Prod.mk.injEq] at h
      intro q hq
      rw [← h.1]
      exact diskWriteFile_mono (diskInsertDirs_mono hq)

theorem create_file_contains {now : String} {disk : Disk} {rp : String}
    {m : CentyManifest} {d2 : Disk} {m2 : CentyManifest}
    (h : create_file now disk rp get_managed_files m = some (d2, m2)) :
    diskContains d2 rp = true := by
  unfold create_file at h
  cases hl : get_managed_files.lookup rp with
  | none => rw [hl] at h; exact absurd h (by simp)
  | some t =>
    rw [hl] at h
    have hmem := mem_of_lookup_eq_some hl
    obtain ⟨ft, c⟩ := t
    cases ft with
    | directory =>
      simp only [Option.some.injEq, Prod.mk.injEq] at h
      rw [← h.1]
      exact diskInsertDirs_contains (catalog_dir_self (rp, ⟨.directory, c⟩) hmem rfl)
    | file =>
      simp only [Option.some.injEq, Prod.mk.injEq] at h
      rw [← h.1]
      exact diskWriteFile_self

/-- Shape of one planner step: exactly one bucket receives one entry whose
path is the catalog key; entries land in create or restore only when the path
is absent from disk, and in reset or up-to-date only when present. -/
theorem planStep_shape (disk : Disk) (mani : Option CentyManifest) (p : String)
    (t : ManagedFileTemplate) (plan : ReconciliationPlan) :
    ∃ fi : FileInfo, fi.path = p ∧
      ((diskContains disk p = false ∧
        (planStep disk mani p t plan =
            { plan with to_create := plan.to_create ++ [fi] } ∨
         planStep disk mani p t plan =
            { plan with to_restore := plan.to_restore ++ [fi] })) ∨
       (diskContains disk p = true ∧
        (planStep disk mani p t plan =
            { plan with to_reset := plan.to_reset ++ [fi] } ∨
         planStep disk mani p t plan =
            { plan with up_to_date := plan.up_to_date ++ [fi] }))) := by
  unfold planStep
  by_cases hd : diskContains disk p = false
  · rw [if_pos hd]
    by_cases hm : (mani.bind (fun m => find_managed_file m p)).isSome
    · rw [if_pos hm]
      exact ⟨fileInfoFor p t, rfl, Or.inl ⟨hd, Or.inr rfl⟩⟩
    · rw [if_neg hm]
      exact ⟨fileInfoFor p t, rfl, Or.inl ⟨hd, Or.inl rfl⟩⟩
  · have hd' : diskContains disk p = true := by
      cases hcd : diskContains disk p
      · exact absurd hcd hd
      · rfl
    rw [if_neg hd]
    obtain ⟨ft, c⟩ := t
    cases ft with
    | directory =>
      dsimp only
      exact ⟨fileInfoFor p ⟨.directory, c⟩, rfl, Or.inr ⟨hd', Or.inr rfl⟩⟩
    | file =>
      cases c with
      | none =>
        dsimp only
        exact ⟨fileInfoFor p ⟨.file, none⟩, rfl, Or.inr ⟨hd', Or.inr rfl⟩⟩
      | some expected =>
        dsimp only
        by_cases hh : diskFileHash disk p == compute_hash expected
        · rw [if_pos hh]
          exact ⟨fileInfoFor p ⟨.file, some expected⟩, rfl, Or.inr ⟨hd', Or.inr rfl⟩⟩
        · rw [if_neg hh]
          exact ⟨{ fileInfoFor p ⟨.file, some expected⟩ with
              hash := diskFileHash disk p }, rfl, Or.inr ⟨hd', Or.inl rfl⟩⟩

/-- Every bucket of the accumulated plan only grows along the catalog walk. -/
theorem buildCore_mono (disk : Disk) (mani : Option CentyManifest) :
    ∀ (cat : List (String × ManagedFileTemplate)) (plan0 : ReconciliationPlan),
    (∀ fi ∈ plan0.to_create, fi ∈ (buildCore disk mani cat plan0).to_create) ∧
    (∀ fi ∈ plan0.to_restore, fi ∈ (buildCore disk mani cat plan0).to_restore) ∧
    (∀ fi ∈ plan0.to_reset, fi ∈ (buildCore disk mani cat plan0).to_reset) ∧
    (∀ fi ∈ plan0.up_to_date, fi ∈ (buildCore disk mani cat plan0).up_to_date) := by
  intro cat
  induction cat with
  | nil =>
    intro plan0
    exact ⟨fun fi h => h, fun fi h => h, fun fi h => h, fun fi h => h⟩
  | cons pt rest ih =>
    intro plan0
    obtain ⟨p, t⟩ := pt
    show (∀ fi ∈ plan0.to_create,
        fi ∈ (buildCore disk mani rest (planStep disk mani p t plan0)).to_create) ∧ _
    obtain ⟨ihc, ihr, ihs, ihu⟩ := ih (planStep disk mani p t plan0)
    obtain ⟨fi0, _, hcase⟩ := planStep_shape disk mani p t plan0
    have hsub : (∀ g ∈ plan0.to_create, g ∈ (planStep disk mani p t plan0).to_create) ∧
        (∀ g ∈ plan0.to_restore, g ∈ (planStep disk mani p t plan0).to_restore) ∧
        (∀ g ∈ plan0.to_reset, g ∈ (planStep disk mani p t plan0).to_reset) ∧
        (∀ g ∈ plan0.up_to_date, g ∈ (planStep disk mani p t plan0).up_to_date) := by
      rcases hcase with ⟨_, heq | heq⟩ | ⟨_, heq | heq⟩ <;> rw [heq] <;>
        exact ⟨fun g h => by simp [h], fun g h => by simp [h],
          fun g h => by simp [h], fun g h => by simp [h]⟩
    exact ⟨fun g h => ihc g (hsub.1 g h),
      fun g h => ihr g (hsub.2.1 g h),
      fun g h => ihs g (hsub.2.2.1 g h),
      fun g h => ihu g (hsub.2.2.2 g h)⟩

/-- Every catalog key lands in some bucket of the plan. -/
theorem buildCore_cover (disk : Disk) (mani : Option CentyManifest) :
    ∀ (cat : List (String × ManagedFileTemplate)) (plan0 : ReconciliationPlan)
      (pt : String × ManagedFileTemplate), pt ∈ cat →
    pt.1 ∈ ((buildCore disk mani cat plan0).to_create ++
      (buildCore disk mani cat plan0).to_restore ++
      (buildCore disk mani cat plan0).to_reset ++
      (buildCore disk mani cat plan0).up_to_date).map (fun fi => fi.path) := by
  intro cat
  induction cat with
  | nil => intro plan0 pt h; simp at h
  | cons qt rest ih =>
    intro plan0 pt h
    obtain ⟨q, t⟩ := qt
    show pt.1 ∈ ((buildCore disk mani rest (planStep disk mani q t plan0)).to_create ++ _ ++ _ ++ _).map _
    rcases List.mem_cons.mp h with h | h
    · subst h
      show q ∈ _
      obtain ⟨fi0, hpath, hcase⟩ := planStep_shape disk mani q t plan0
      obtain ⟨ihc, ihr, ihs, ihu⟩ := buildCore_mono disk mani rest
        (planStep disk mani q t plan0)
      have hin : fi0 ∈ (buildCore disk mani rest (planStep disk mani q t plan0)).to_create ∨
          fi0 ∈ (buildCore disk mani rest (planStep disk mani q t plan0)).to_restore ∨
          fi0 ∈ (buildCore disk mani rest (planStep disk mani q t plan0)).to_reset ∨
          fi0 ∈ (buildCore disk mani rest (planStep disk mani q t plan0)).up_to_date := by
        rcases hcase with ⟨_, heq | heq⟩ | ⟨_, heq | heq⟩
        · exact Or.inl (ihc fi0 (by rw [heq]; simp))
        · exact Or.inr (Or.inl (ihr fi0 (by rw [heq]; simp)))
        · exact Or.inr (Or.inr (Or.inl (ihs fi0 (by rw [heq]; simp))))
        · exact Or.inr (Or.inr (Or.inr (ihu fi0 (by rw [heq]; simp))))
      rw [List.map_append, List.map_append, List.map_append]
      rcases hin with hin | hin | hin | hin
      · exact List.mem_append_left _ (List.mem_append_left _
          (List.mem_append_left _ (List.mem_map.mpr ⟨fi0, hin, hpath⟩)))
      · exact List.mem_append_left _ (List.mem_append_left _
          (List.mem_append_right _ (List.mem_map.mpr ⟨fi0, hin, hpath⟩)))
      · exact List.mem_append_left _ (List.mem_append_right _
          (List.mem_map.mpr ⟨fi0, hin, hpath⟩))
      · exact List.mem_append_right _ (List.mem_map.mpr ⟨fi0, hin, hpath⟩)
    · exact ih (planStep disk mani q t plan0) pt h

/-- Create and restore entries of the plan carry catalog keys that are absent
from disk; reset and up-to-date entries carry keys present on disk. -/
theorem buildCore_props (disk : Disk) (mani : Option CentyManifest) :
    ∀ (cat : List (String × ManagedFileTemplate)) (plan0 : ReconciliationPlan),
    (∀ fi ∈ (buildCore disk mani cat plan0).to_create,
      fi ∈ plan0.to_create ∨
        (fi.path ∈ cat.map Prod.fst ∧ diskContains disk fi.path = false)) ∧
    (∀ fi ∈ (buildCore disk mani cat plan0).to_restore,
      fi ∈ plan0.to_restore ∨
        (fi.path ∈ cat.map Prod.fst ∧ diskContains disk fi.path = false)) ∧
    (∀ fi ∈ (buildCore disk mani cat plan0).to_reset,
      fi ∈ plan0.to_reset ∨ diskContains disk fi.path = true) ∧
    (∀ fi ∈ (buildCore disk mani cat plan0).up_to_date,
      fi ∈ plan0.up_to_date ∨ diskContains disk fi.path = true) := by
  intro cat
  induction cat with
  | nil =>
    intro plan0
    exact ⟨fun fi h => Or.inl h, fun fi h => Or.inl h,
      fun fi h => Or.inl h, fun fi h => Or.inl h⟩
  | cons qt rest ih =>
    intro plan0
    obtain ⟨q, t⟩ := qt
    show (∀ fi ∈ (buildCore disk mani rest (planStep disk mani q t plan0)).to_create, _) ∧ _
    obtain ⟨ihc, ihr, ihs, ihu⟩ := ih (planStep disk mani q t plan0)
    obtain ⟨fi0, hpath, hcase⟩ := planStep_shape disk mani q t plan0
    refine ⟨?_, ?_, ?_, ?_⟩
    · intro fi hfi
      rcases ihc fi hfi with hold | ⟨hk, hdc⟩
      · rcases hcase with ⟨hd, heq | heq⟩ | ⟨hd, heq | heq⟩ <;> rw [heq] at hold
        · rcases List.mem_append.mp hold with hold | hold
          · exact Or.inl hold
          · simp only [List.mem_singleton] at hold
            subst hold
            exact Or.inr ⟨by rw [hpath]; simp, by rw [hpath]; exact hd⟩
        all_goals exact Or.inl hold
      · exact Or.inr ⟨by simp [hk], hdc⟩
    · intro fi hfi
      rcases ihr fi hfi with hold | ⟨hk, hdc⟩
      · rcases hcase with ⟨hd, heq | heq⟩ | ⟨hd, heq | heq⟩ <;> rw [heq] at hold
        · exact Or.inl hold
        · rcases List.mem_append.mp hold with hold | hold
          · exact Or.inl hold
          · simp only [List.mem_singleton] at hold
            subst hold
            exact Or.inr ⟨by rw [hpath]; simp, by rw [hpath]; exact hd⟩
        all_goals exact Or.inl hold
      · exact Or.inr ⟨by simp [hk], hdc⟩
    · intro fi hfi
      rcases ihs fi hfi with hold | hdc
      · rcases hcase with ⟨hd, heq | heq⟩ | ⟨hd, heq | heq⟩ <;> rw [heq] at hold
        · exact Or.inl hold
        · exact Or.inl hold
        · rcases List.mem_append.mp hold with hold | hold
          · exact Or.inl hold
          · simp only [List.mem_singleton] at hold
            subst hold
            exact Or.inr (by rw [hpath]; exact hd)
        · exact Or.inl hold
      · exact Or.inr hdc
    · intro fi hfi
      rcases ihu fi hfi with hold | hdc
      · rcases hcase with ⟨hd, heq | heq⟩ | ⟨hd, heq | heq⟩ <;> rw [heq] at hold
        · exact Or.inl hold
        · exact Or.inl hold
        · exact Or.inl hold
        · rcases List.mem_append.mp hold with hold | hold
          · exact Or.inl hold
          · simp only [List.mem_singleton] at hold
            subst hold
            exact Or.inr (by rw [hpath]; exact hd)
      · exact Or.inr hdc

/-- When every catalog key is present on disk, the walk adds nothing to the
create and restore buckets. -/
theorem buildCore_stable (disk : Disk) (mani : Option CentyManifest) :
    ∀ (cat : List (String × ManagedFileTemplate)) (plan0 : ReconciliationPlan),
    (∀ pt ∈ cat, diskContains disk pt.1 = true) →
    (buildCore disk mani cat plan0).to_create = plan0.to_create ∧
    (buildCore disk mani cat plan0).to_restore = plan0.to_restore := by
  intro cat
  induction cat with
  | nil => intro plan0 _; exact ⟨rfl, rfl⟩
  | cons qt rest ih =>
    intro plan0 hall
    obtain ⟨q, t⟩ := qt
    show (buildCore disk mani rest (planStep disk mani q t plan0)).to_create = _ ∧ _
    have hq : diskContains disk q = true := hall (q, t) (List.mem_cons_self _ _)
    obtain ⟨fi0, hpath, hcase⟩ := planStep_shape disk mani q t plan0
    have hstep : (planStep disk mani q t plan0).to_create = plan0.to_create ∧
        (planStep disk mani q t plan0).to_restore = plan0.to_restore := by
      rcases hcase with ⟨hd, _⟩ | ⟨_, heq | heq⟩
      · rw [hq] at hd; exact absurd hd (by simp)
      · rw [heq]; exact ⟨rfl, rfl⟩
      · rw [heq]; exact ⟨rfl, rfl⟩
    obtain ⟨h1, h2⟩ := ih (planStep disk mani q t plan0)
      (fun pt hpt => hall pt (List.mem_cons_of_mem _ hpt))
    exact ⟨h1.trans hstep.1, h2.trans hstep.2⟩

/-- The create processor succeeds when every planned path has a catalog
template; the result disk extends the input disk and contains every
processed path. -/
theorem processCreates_spec (now : String) :
    ∀ (lst : List FileInfo) (disk : Disk) (m : CentyManifest) (created : List String),
    (∀ fi ∈ lst, (get_managed_files.lookup fi.path).isSome) →
    ∃ d1 m1 created1,
      processCreates now get_managed_files lst disk m created = some (d1, m1, created1) ∧
      (∀ q, diskContains disk q = true → diskContains d1 q = true) ∧
      (∀ fi ∈ lst, diskContains d1 fi.path = true) := by
  intro lst
  induction lst with
  | nil =>
    intro disk m created _
    exact ⟨disk, m, created, rfl, fun q h => h, fun fi h => absurd h (by simp)⟩
  | cons fi rest ih =>
    intro disk m created hall
    obtain ⟨disk2, m2, hcf⟩ := create_file_total now disk m
      (hall fi (List.mem_cons_self _ _))
    obtain ⟨d1, m1, created1, heq, hmono, hcont⟩ :=
      ih disk2 m2 (created ++ [fi.path])
        (fun g hg => hall g (List.mem_cons_of_mem _ hg))
    refine ⟨d1, m1, created1, ?_, ?_, ?_⟩
    · show (match create_file now disk fi.path get_managed_files m with
        | none => none
        | some (disk2, m2) =>
          processCreates now get_managed_files rest disk2 m2 (created ++ [fi.path])) = _
      rw [hcf]
      exact heq
    · exact fun q hq => hmono q (create_file_mono hcf q hq)
    · intro g hg
      rcases List.mem_cons.mp hg with hg | hg
      · subst hg
        exact hmono g.path (create_file_contains hcf)
      · exact hcont g hg

/-- With force, the restore processor behaves like the create processor:
every planned path is materialized. -/
theorem processRestores_force_spec (now : String) (decisions : ReconciliationDecisions) :
    ∀ (lst : List FileInfo) (disk : Disk) (m : CentyManifest)
      (restored skipped : List String),
    (∀ fi ∈ lst, (get_managed_files.lookup fi.path).isSome) →
    ∃ d1 m1 r1 s1,
      processRestores now get_managed_files decisions true lst disk m restored skipped =
        some (d1, m1, r1, s1) ∧
      (∀ q, diskContains disk q = true → diskContains d1 q = true) ∧
      (∀ fi ∈ lst, diskContains d1 fi.path = true) := by
  intro lst
  induction lst with
  | nil =>
    intro disk m restored skipped _
    exact ⟨disk, m, restored, skipped, rfl, fun q h => h, fun fi h => absurd h (by simp)⟩
  | cons fi rest ih =>
    intro disk m restored skipped hall
    obtain ⟨disk2, m2, hcf⟩ := create_file_total now disk m
      (hall fi (List.mem_cons_self _ _))
    obtain ⟨d1, m1, r1, s1, heq, hmono, hcont⟩ :=
      ih disk2 m2 (restored ++ [fi.path]) skipped
        (fun g hg => hall g (List.mem_cons_of_mem _ hg))
    refine ⟨d1, m1, r1, s1, ?_, ?_, ?_⟩
    · unfold processRestores
      rw [if_pos (by simp), hcf]
      exact heq
    · exact fun q hq => hmono q (create_file_mono hcf q hq)
    · intro g hg
      rcases List.mem_cons.mp hg with hg | hg
      · subst hg
        exact hmono g.path (create_file_contains hcf)
      · exact hcont g hg

/-- With an empty reset decision set, the reset processor touches no file:
it always succeeds and returns the disk unchanged. -/
theorem processResets_empty (now : String)
    (templates : List (String × ManagedFileTemplate)) (restoreL : List String) :
    ∀ (lst : List FileInfo) (disk : Disk) (m : CentyManifest)
      (reseted skipped : List String),
    ∃ m1 s1,
      processResets now templates ⟨restoreL, []⟩ lst disk m reseted skipped =
        some (disk, m1, reseted, s1) := by
  intro lst
  induction lst with
  | nil =>
    intro disk m reseted skipped
    exact ⟨m, skipped, rfl⟩
  | cons fi rest ih =>
    intro disk m reseted skipped
    show ∃ m1 s1,
      (if ([] : List String).contains fi.path then _ else
        processResets now templates ⟨restoreL, []⟩ rest disk
          (match templates.lookup fi.path with
           | some t =>
             add_file_to_manifest now m
               (create_managed_file now fi.path fi.hash t.file_type)
           | none => m) reseted (skipped ++ [fi.path])) = some (disk, m1, reseted, s1)
    rw [if_neg (by simp)]
    exact ih disk _ reseted (skipped ++ [fi.path])

/-! ## Versioning and migration (source: src/version, src/migration) -/

structure SemVer where
  major : Nat
  minor : Nat
  patch : Nat
deriving DecidableEq, Repr

/-- Display form M.m.p. -/
def SemVer.toChars (v : SemVer) : List Char :=
  natToChars v.major ++ '.' :: natToChars v.minor ++ '.' :: natToChars v.patch

def SemVer.str (v : SemVer) : String := String.mk v.toChars

/-- Lexicographic strict order on (major, minor, patch), the Ord impl. -/
def SemVer.lt (a b : SemVer) : Bool :=
  a.major < b.major ||
    (a.major = b.major &&
      (a.minor < b.minor || (a.minor = b.minor && a.patch < b.patch)))

/-- Parse of exactly three dot-separated decimal components (SemVer::parse). -/
def SemVer.parse (s : String) : Option SemVer :=
  match s.splitOn "." with
  | [a, b, c] =>
    match parse_u32 a.data, parse_u32 b.data, parse_u32 c.data with
    | some x, some y, some z => some ⟨x, y, z⟩
    | _, _, _ => none
  | _ => none

/-- One registered migration. The side-effecting up and down operations act on
an abstract project state σ and return none on failure; a failing operation is
modelled as leaving the state unchanged (the claims constrain the executor
control flow, not the opaque step bodies). -/
structure Migration (σ : Type) where
  from_version : SemVer
  to_version : SemVer
  description : String
  up : σ → Option σ
  down : σ → Option σ

inductive MigrationDirection
  | up
  | down
deriving DecidableEq, Repr

/-- Record of one operation invocation, for stating which operations ran. -/
inductive MigrationEvent
  | upRun (from_version to_version : SemVer)
  | downRun (from_version to_version : SemVer)
deriving DecidableEq, Repr

/-- Walk of the registry while upgrading: repeatedly find the migration whose
from_version equals the current version. The fuel bounds the loop, which the
source leaves unbounded; on sane registries the fuel below never runs out. -/
def pathUp (migrations : List (Migration σ)) :
    Nat → SemVer → SemVer → Option (List (Migration σ))
  | 0, _, _ => none
  | fuel + 1, current, target =>
    if SemVer.lt current target then
      match migrations.find? (fun m => m.from_version == current) with
      | none => none
      | some m => (pathUp migrations fuel m.to_version target).map (fun p => m :: p)
    else some []

/-- Walk of the registry while downgrading: find the migration whose
to_version equals the current version. -/
def pathDown (migrations : List (Migration σ)) :
    Nat → SemVer → SemVer → Option (List (Migration σ))
  | 0, _, _ => none
  | fuel + 1, current, target =>
    if SemVer.lt target current then
      match migrations.find? (fun m => m.to_version == current) with
      | none => none
      | some m =>
        (pathDown migrations fuel m.from_version target).map (fun p => m :: p)
    else some []

/-- Migration path lookup (MigrationRegistry::get_migration_path); none covers
the NoMigrationPath error and fuel exhaustion. -/
def get_migration_path (migrations : List (Migration σ)) (from_v to_v : SemVer) :
    Option (List (Migration σ) × MigrationDirection) :=
  if from_v = to_v then some ([], .up)
  else if SemVer.lt from_v to_v then
    (pathUp migrations (migrations.length + 1) from_v to_v).map
      (fun p => (p, MigrationDirection.up))
  else
    (pathDown migrations (migrations.length + 1) from_v to_v).map
      (fun p => (p, MigrationDirection.down))

structure MigrationResult where
  success : Bool
  from_version : String
  to_version : String
  migrations_applied : List String
  error : Option String
deriving DecidableEq, Repr

def opOf (direction : MigrationDirection) (m : Migration σ) : σ → Option σ :=
  match direction with
  | .up => m.up
  | .down => m.down

/-- Rollback runs the opposite operation. -/
def rollbackOp (direction : MigrationDirection) (m : Migration σ) : σ → Option σ :=
  match direction with
  | .up => m.down
  | .down => m.up

def fwdEvent (direction : MigrationDirection) (m : Migration σ) : MigrationEvent :=
  match direction with
  | .up => .upRun m.from_version m.to_version
  | .down => .downRun m.from_version m.to_version

def bwdEvent (direction : MigrationDirection) (m : Migration σ) : MigrationEvent :=
  match direction with
  | .up => .downRun m.from_version m.to_version
  | .down => .upRun m.from_version m.to_version

/-- Rollback of a list of migrations (already reversed by the caller): invoke
the opposite operation of each; a failing rollback is logged and otherwise
ignored by the source. -/
def rollbackAll (direction : MigrationDirection) :
    List (Migration σ) → σ → List MigrationEvent → σ × List MigrationEvent
  | [], st, trace => (st, trace)
  | m :: rest, st, trace =>
    let st2 := match rollbackOp direction m st with
      | some s => s
      | none => st
    rollbackAll direction rest st2 (trace ++ [bwdEvent direction m])

/-- The apply loop of MigrationExecutor::migrate: run each step; on the first
failure, roll back the applied steps in reverse and report the failing
migration. The event trace records every invoked operation in order. -/
def applyLoop (direction : MigrationDirection) :
    List (Migration σ) → σ → List (Migration σ) → List MigrationEvent →
    σ × List MigrationEvent × Except (Migration σ) (List (Migration σ))
  | [], st, applied, trace => (st, trace, .ok applied)
  | m :: rest, st, applied, trace =>
    match opOf direction m st with
    | some st2 =>
      applyLoop direction rest st2 (applied ++ [m])
        (trace ++ [fwdEvent direction m])
    | none =>
      let r := rollbackAll direction applied.reverse st
        (trace ++ [fwdEvent direction m])
      (r.1, r.2, .error m)

def migration_name (m : Migration σ) : String :=
  m.from_version.str ++ " -> " ++ m.to_version.str ++ ": " ++ m.description

/-- Everything observable about one call of MigrationExecutor::migrate: the
returned result, the final project state, the stored config version after the
call, and the trace of invoked operations. -/
structure MigrateOutcome (σ : Type) where
  result : MigrationResult
  state : σ
  config_version : Option String
  trace : List MigrationEvent

/-- MigrationExecutor::migrate. The stored version is read from the config
(0.0.0 when absent); the path is computed; steps run in order with rollback on
failure; the config version is written to the target only after every step
succeeded. The outer none covers the error returns (unparseable stored
version, no migration path). -/
def migrate (migrations : List (Migration σ)) (config_version : Option String)
    (target : SemVer) (st : σ) : Option (MigrateOutcome σ) :=
  let current? : Option SemVer :=
    match config_version with
    | none => some ⟨0, 0, 0⟩
    | some s => SemVer.parse s
  match current? with
  | none => none
  | some current =>
    match get_migration_path migrations current target with
    | none => none
    | some (steps, direction) =>
      if steps.isEmpty then
        some ⟨{ success := true, from_version := current.str,
                to_version := target.str, migrations_applied := [],
                error := none }, st, config_version, []⟩
      else
        match applyLoop direction steps st [] [] with
        | (st2, trace, .error m) =>
          some ⟨{ success := false, from_version := current.str,
                  to_version := target.str, migrations_applied := [],
                  error := some ("Migration " ++ migration_name m ++ " failed") },
                st2, config_version, trace⟩
        | (st2, trace, .ok applied) =>
          some ⟨{ success := true, from_version := current.str,
                  to_version := target.str,
                  migrations_applied := applied.map migration_name,
                  error := none },
                st2, some target.str, trace⟩

/-- Registry of the rollback scenario: 0.0.0 to 0.1.0 succeeds in both
directions, 0.1.0 to 0.2.0 fails on the way up. The state records every
invoked operation. -/
def c5migs : List (Migration (List String)) :=
  [{ from_version := ⟨0, 0, 0⟩, to_version := ⟨0, 1, 0⟩, description := "first",
     up := fun st => some (st ++ ["up1"]), down := fun st => some (st ++ ["down1"]) },
   { from_version := ⟨0, 1, 0⟩, to_version := ⟨0, 2, 0⟩, description := "second",
     up := fun _ => none, down := fun st => some (st ++ ["down2"]) }]

/-- Outcome of migrating the rollback scenario from 0.0.0 to 0.2.0. -/
def c5out : MigrateOutcome (List String) :=
  ⟨{ success := false, from_version := "0.0.0", to_version := "0.2.0",
     migrations_applied := [],
     error := some "Migration 0.1.0 -> 0.2.0: second failed" },
   ["up1", "down1"], none,
   [.upRun ⟨0, 0, 0⟩ ⟨0, 1, 0⟩, .upRun ⟨0, 1, 0⟩ ⟨0, 2, 0⟩,
    .downRun ⟨0, 0, 0⟩ ⟨0, 1, 0⟩]⟩

/-! ## Config and issue creation (source: src/config, src/issue/create.rs) -/

structure CustomFieldDefinition where
  name : String
  field_type : String
  required : Bool
  default_value : Option String
  enum_values : List String
deriving DecidableEq, Repr

/-- Project configuration; the fields no claim touches (colors, llm
preferences) are not modelled. -/
structure CentyConfig where
  version : Option String
  priority_levels : Nat
  custom_fields : List CustomFieldDefinition
  defaults : List (String × String)
  allowed_states : List String
  default_state : String
deriving DecidableEq, Repr

/-- Issue markdown content (generate_issue_md): heading only when the
description is empty. -/
def generate_issue_md (title description : String) : String :=
  if description = "" then "# " ++ title ++ "\n"
  else "# " ++ title ++ "\n\n" ++ description ++ "\n"

/-- Whitespace trimming on both ends (the trim of the title check), as a
structural function on the character list. -/
def trimChars (cs : List Char) : List Char :=
  ((cs.dropWhile Char.isWhitespace).reverse.dropWhile Char.isWhitespace).reverse

structure CreateIssueOptions where
  title : String
  description : String
  priority : Option Nat
  status : Option String
  custom_fields : List (String × String)
  template : Option String
deriving DecidableEq, Repr

/-- Everything create_issue produces on the success path. -/
structure CreatedIssue where
  id : String
  display_number : Nat
  issue_md : String
  metadata : IssueMetadata
  manifest : CentyManifest
  created_files : List String
deriving DecidableEq, Repr

/-- Custom field values for a new issue: config defaults first, then the
provided fields override. -/
def buildCustomFields (config : Option CentyConfig)
    (provided : List (String × String)) : List (String × String) :=
  let base :=
    match config with
    | some c =>
      c.custom_fields.foldl
        (fun acc f =>
          match f.default_value with
          | some dv => upsertField acc (f.name, dv)
          | none => acc) []
    | none => []
  provided.foldl upsertField base

/-- Serialization of metadata to its stored form, modelled as a field-wise
encoding standing in for the pretty-printed JSON (only its hash is ever
consumed, so any injective encoding is a faithful model). -/
def serialize_metadata (m : IssueMetadata) : String :=
  "displayNumber:" ++ String.mk (natToChars m.display_number) ++
  ";status:" ++ m.status ++
  ";priority:" ++ String.mk (natToChars m.priority) ++
  ";createdAt:" ++ m.created_at ++
  ";updatedAt:" ++ m.updated_at

/-- Model of create_issue. The impure inputs are explicit: the clock, the
uuid random bytes, the stored config, the stored manifest, and the scanned
existing issues (what get_next_display_number reads). none covers the error
exits (empty trimmed title, missing manifest, out-of-range priority) and the
template branch, which delegates to the external renderer and which no claim
exercises. -/
def create_issue (now : String) (b : Fin 16 → Nat) (config : Option CentyConfig)
    (manifest0 : Option CentyManifest) (existing : List IssueInfo)
    (options : CreateIssueOptions) : Option CreatedIssue :=
  if trimChars options.title.data = [] then none
  else
    match manifest0 with
    | none => none
    | some manifest =>
      let issue_id := generate_issue_id b
      let display_number := get_next_display_number existing
      let priority_levels := (config.map (fun c => c.priority_levels)).getD 3
      let priority? : Option Nat :=
        match options.priority with
        | some p => if validate_priority p priority_levels then some p else none
        | none =>
          some ((((config.bind (fun c => c.defaults.lookup "priority")).bind
            (fun s => parse_u32 s.data))).getD (default_priority priority_levels))
      match priority? with
      | none => none
      | some priority =>
        let status := options.status.getD
          ((config.map (fun c => c.default_state)).getD "open")
        let custom_field_values := buildCustomFields config options.custom_fields
        let metadata :=
          IssueMetadata.new now display_number status priority custom_field_values
        match options.template with
        | some _ => none
        | none =>
          let issue_md := generate_issue_md options.title options.description
          let base_path := "issues/" ++ issue_id ++ "/"
          let m1 := add_file_to_manifest now manifest
            (create_managed_file now base_path "" .directory)
          let m2 := add_file_to_manifest now m1
            (create_managed_file now (base_path ++ "issue.md")
              (compute_hash issue_md) .file)
          let m3 := add_file_to_manifest now m2
            (create_managed_file now (base_path ++ "metadata.json")
              (compute_hash (serialize_metadata metadata)) .file)
          let m4 := add_file_to_manifest now m3
            (create_managed_file now (base_path ++ "assets/") "" .directory)
          some
            { id := issue_id
              display_number := display_number
              issue_md := issue_md
              metadata := metadata
              manifest := m4
              created_files :=
                [".centy/issues/" ++ issue_id ++ "/issue.md",
                 ".centy/issues/" ++ issue_id ++ "/metadata.json",
                 ".centy/issues/" ++ issue_id ++ "/assets/"] }

/-! ## Lemmas about the migration executor -/

theorem rollbackAll_spec (direction : MigrationDirection) :
    ∀ (lst : List (Migration σ)) (st : σ) (trace : List MigrationEvent),
    (rollbackAll direction lst st trace).2 =
      trace ++ lst.map (bwdEvent direction) := by
  intro lst
  induction lst with
  | nil => intro st trace; simp [rollbackAll]
  | cons m rest ih =>
    intro st trace
    simp only [rollbackAll, List.map_cons]
    rw [ih]
    simp

theorem applyLoop_ok (direction : MigrationDirection) :
    ∀ (steps : List (Migration σ)) (st : σ) (applied : List (Migration σ))
      (trace : List MigrationEvent) (st2 : σ) (trace2 : List MigrationEvent)
      (applied2 : List (Migration σ)),
    applyLoop direction steps st applied trace = (st2, trace2, .ok applied2) →
    applied2 = applied ++ steps ∧
    trace2 = trace ++ steps.map (fwdEvent direction) := by
  intro steps
  induction steps with
  | nil =>
    intro st applied trace st2 trace2 applied2 h
    simp only [applyLoop, Prod.mk.injEq] at h
    obtain ⟨_, h2, h3⟩ := h
    have := h3
    simp only [Except.ok.injEq] at this
    simp [← this, ← h2]
  | cons m rest ih =>
    intro st applied trace st2 trace2 applied2 h
    simp only [applyLoop] at h
    cases hop : opOf direction m st with
    | some st3 =>
      rw [hop] at h
      obtain ⟨h1, h2⟩ := ih st3 (applied ++ [m]) (trace ++ [fwdEvent direction m])
        st2 trace2 applied2 h
      constructor
      · rw [h1]; simp
      · rw [h2]; simp
    | none =>
      rw [hop] at h
      simp only [Prod.mk.injEq] at h
      exact absurd h.2.2 (by simp)

theorem applyLoop_err (direction : MigrationDirection) :
    ∀ (steps : List (Migration σ)) (st : σ) (applied : List (Migration σ))
      (trace : List MigrationEvent) (st2 : σ) (trace2 : List MigrationEvent)
      (mfail : Migration σ),
    applyLoop direction steps st applied trace = (st2, trace2, .error mfail) →
    ∃ pre post, steps = pre ++ mfail :: post ∧
      trace2 = trace ++ pre.map (fwdEvent direction) ++
        [fwdEvent direction mfail] ++
        ((applied ++ pre).reverse).map (bwdEvent direction) := by
  intro steps
  induction steps with
  | nil =>
    intro st applied trace st2 trace2 mfail h
    simp only [applyLoop, Prod.mk.injEq] at h
    exact absurd h.2.2 (by simp)
  | cons m rest ih =>
    intro st applied trace st2 trace2 mfail h
    simp only [applyLoop] at h
    cases hop : opOf direction m st with
    | some st3 =>
      rw [hop] at h
      obtain ⟨pre, post, h1, h2⟩ := ih st3 (applied ++ [m])
        (trace ++ [fwdEvent direction m]) st2 trace2 mfail h
      refine ⟨m :: pre, post, by simp [h1], ?_⟩
      rw [h2]
      simp
    | none =>
      rw [hop] at h
      simp only [Prod.mk.injEq] at h
      obtain ⟨h1, h2, h3⟩ := h
      simp only [Except.error.injEq] at h3
      refine ⟨[], rest, by simp [← h3], ?_⟩
      rw [← h2, rollbackAll_spec]
      simp [← h3]

/-! ## Claim theorems -/

theorem cons_ne_of_head {c : Char} {xs l : List Char} (h : l.head? ≠ some c) :
    c :: xs ≠ l := by
  intro he
  rw [← he] at h
  simp at h

/-- C1: after any sequence of daemon manifest mutations (insert-or-replace
upserts and retains, covering issue and doc create, update, delete, and
reconciliation execute) applied to a manifest satisfying the uniqueness
invariant, the persisted manifest has its managed files sorted by path (the
linear string order, which is ASCII order on these paths) and at most one
entry per path. -/
theorem C1_manifest_sorted_unique (m : CentyManifest) (h : pathsNodup m)
    (ops : List ManifestOp) :
    ((write_manifest (applyOps m ops)).managed_files.Pairwise
      (fun a b => a.path ≤ b.path)) ∧
    ((write_manifest (applyOps m ops)).managed_files.map
      (fun f => f.path)).Nodup :=
  ⟨write_manifest_sorted _, write_manifest_nodup (pathsNodup_applyOps h ops)⟩

theorem C1_manifest_sorted_unique_witness :
    pathsNodup (create_manifest "t") ∧
    (((write_manifest (applyOps (create_manifest "t")
        [ManifestOp.upsert "t1" (create_managed_file "t1" "z.md" "h1" .file),
         ManifestOp.upsert "t2" (create_managed_file "t2" "a.md" "h2" .file),
         ManifestOp.upsert "t3" (create_managed_file "t3" "a.md" "h3" .file),
         ManifestOp.retainFiles (fun f => f.path != "z.md") "t4"])).managed_files.Pairwise
      (fun a b => a.path ≤ b.path)) ∧
    ((write_manifest (applyOps (create_manifest "t")
        [ManifestOp.upsert "t1" (create_managed_file "t1" "z.md" "h1" .file),
         ManifestOp.upsert "t2" (create_managed_file "t2" "a.md" "h2" .file),
         ManifestOp.upsert "t3" (create_managed_file "t3" "a.md" "h3" .file),
         ManifestOp.retainFiles (fun f => f.path != "z.md") "t4"])).managed_files.map
      (fun f => f.path)).Nodup) :=
  ⟨by simp [pathsNodup, create_manifest],
   C1_manifest_sorted_unique (create_manifest "t")
     (by simp [pathsNodup, create_manifest]) _⟩

/-- C2 counterexample: a single issue with the legacy display number 0 (and a
valid uuid folder) is left untouched by reconcile_display_numbers: the
duplicate-processing loop skips every group of size one before the zero case
is examined, so the issue retains display number 0, against the claim that no
issue retains 0. -/
theorem C2_lone_zero_retained :
    reconcile_display_numbers
      [⟨"550e8400-e29b-41d4-a716-446655440001", 0, "2024-01-01T10:00:00Z"⟩] = [] ∧
    finalDisplay
      [⟨"550e8400-e29b-41d4-a716-446655440001", 0, "2024-01-01T10:00:00Z"⟩]
      ⟨"550e8400-e29b-41d4-a716-446655440001", 0, "2024-01-01T10:00:00Z"⟩ = 0 ∧
    is_valid_issue_folder "550e8400-e29b-41d4-a716-446655440001" = true := by
  decide

/-- C2 (amended): after reconcile_display_numbers, the display numbers of
distinct issues are pairwise distinct whenever both are positive, and every
legacy zero is replaced provided at least two issues carry display number 0
(a lone zero is retained, see the counterexample). Side conditions: folder
names are distinct, and the u32 allocation counter does not wrap. -/
theorem C2_display_numbers_distinct (issues : List IssueInfo)
    (hf : (issues.map (fun i => i.folder_name)).Nodup)
    (hov : maxDisplay issues + 1 + freshCount issues (keysOf issues) < U32_MOD) :
    (∀ i ∈ issues, ∀ j ∈ issues, i ≠ j →
      0 < finalDisplay issues i → 0 < finalDisplay issues j →
      finalDisplay issues i ≠ finalDisplay issues j) ∧
    (2 ≤ (groupOf issues 0).length → ∀ i ∈ issues, 0 < finalDisplay issues i) :=
  ⟨reconcile_distinct issues hf hov, reconcile_no_zero issues hov⟩

theorem C2_display_numbers_distinct_witness :
    ((([⟨"aaaaaaaa-0000-4000-8000-000000000001", 4, "2024-01-01T10:00:00Z"⟩,
        ⟨"bbbbbbbb-0000-4000-8000-000000000002", 4, "2024-01-01T10:05:00Z"⟩,
        ⟨"cccccccc-0000-4000-8000-000000000003", 0, "2024-01-01T10:06:00Z"⟩,
        ⟨"dddddddd-0000-4000-8000-000000000004", 0, "2024-01-01T10:07:00Z"⟩] :
        List IssueInfo).map (fun i => i.folder_name)).Nodup ∧
     maxDisplay [⟨"aaaaaaaa-0000-4000-8000-000000000001", 4, "2024-01-01T10:00:00Z"⟩,
        ⟨"bbbbbbbb-0000-4000-8000-000000000002", 4, "2024-01-01T10:05:00Z"⟩,
        ⟨"cccccccc-0000-4000-8000-000000000003", 0, "2024-01-01T10:06:00Z"⟩,
        ⟨"dddddddd-0000-4000-8000-000000000004", 0, "2024-01-01T10:07:00Z"⟩] + 1 +
       freshCount [⟨"aaaaaaaa-0000-4000-8000-000000000001", 4, "2024-01-01T10:00:00Z"⟩,
        ⟨"bbbbbbbb-0000-4000-8000-000000000002", 4, "2024-01-01T10:05:00Z"⟩,
        ⟨"cccccccc-0000-4000-8000-000000000003", 0, "2024-01-01T10:06:00Z"⟩,
        ⟨"dddddddd-0000-4000-8000-000000000004", 0, "2024-01-01T10:07:00Z"⟩]
       (keysOf [⟨"aaaaaaaa-0000-4000-8000-000000000001", 4, "2024-01-01T10:00:00Z"⟩,
        ⟨"bbbbbbbb-0000-4000-8000-000000000002", 4, "2024-01-01T10:05:00Z"⟩,
        ⟨"cccccccc-0000-4000-8000-000000000003", 0, "2024-01-01T10:06:00Z"⟩,
        ⟨"dddddddd-0000-4000-8000-000000000004", 0, "2024-01-01T10:07:00Z"⟩]) <
       U32_MOD) ∧
    ((∀ i ∈ ([⟨"aaaaaaaa-0000-4000-8000-000000000001", 4, "2024-01-01T10:00:00Z"⟩,
        ⟨"bbbbbbbb-0000-4000-8000-000000000002", 4, "2024-01-01T10:05:00Z"⟩,
        ⟨"cccccccc-0000-4000-8000-000000000003", 0, "2024-01-01T10:06:00Z"⟩,
        ⟨"dddddddd-0000-4000-8000-000000000004", 0, "2024-01-01T10:07:00Z"⟩] :
        List IssueInfo), ∀ j ∈ ([⟨"aaaaaaaa-0000-4000-8000-000000000001", 4, "2024-01-01T10:00:00Z"⟩,
        ⟨"bbbbbbbb-0000-4000-8000-000000000002", 4, "2024-01-01T10:05:00Z"⟩,
        ⟨"cccccccc-0000-4000-8000-000000000003", 0, "2024-01-01T10:06:00Z"⟩,
        ⟨"dddddddd-0000-4000-8000-000000000004", 0, "2024-01-01T10:07:00Z"⟩] :
        List IssueInfo), i ≠ j →
      0 < finalDisplay [⟨"aaaaaaaa-0000-4000-8000-000000000001", 4, "2024-01-01T10:00:00Z"⟩,
        ⟨"bbbbbbbb-0000-4000-8000-000000000002", 4, "2024-01-01T10:05:00Z"⟩,
        ⟨"cccccccc-0000-4000-8000-000000000003", 0, "2024-01-01T10:06:00Z"⟩,
        ⟨"dddddddd-0000-4000-8000-000000000004", 0, "2024-01-01T10:07:00Z"⟩] i →
      0 < finalDisplay [⟨"aaaaaaaa-0000-4000-8000-000000000001", 4, "2024-01-01T10:00:00Z"⟩,
        ⟨"bbbbbbbb-0000-4000-8000-000000000002", 4, "2024-01-01T10:05:00Z"⟩,
        ⟨"cccccccc-0000-4000-8000-000000000003", 0, "2024-01-01T10:06:00Z"⟩,
        ⟨"dddddddd-0000-4000-8000-000000000004", 0, "2024-01-01T10:07:00Z"⟩] j →
      finalDisplay [⟨"aaaaaaaa-0000-4000-8000-000000000001", 4, "2024-01-01T10:00:00Z"⟩,
        ⟨"bbbbbbbb-0000-4000-8000-000000000002", 4, "2024-01-01T10:05:00Z"⟩,
        ⟨"cccccccc-0000-4000-8000-000000000003", 0, "2024-01-01T10:06:00Z"⟩,
        ⟨"dddddddd-0000-4000-8000-000000000004", 0, "2024-01-01T10:07:00Z"⟩] i ≠
      finalDisplay [⟨"aaaaaaaa-0000-4000-8000-000000000001", 4, "2024-01-01T10:00:00Z"⟩,
        ⟨"bbbbbbbb-0000-4000-8000-000000000002", 4, "2024-01-01T10:05:00Z"⟩,
        ⟨"cccccccc-0000-4000-8000-000000000003", 0, "2024-01-01T10:06:00Z"⟩,
        ⟨"dddddddd-0000-4000-8000-000000000004", 0, "2024-01-01T10:07:00Z"⟩] j) ∧
    (2 ≤ (groupOf [⟨"aaaaaaaa-0000-4000-8000-000000000001", 4, "2024-01-01T10:00:00Z"⟩,
        ⟨"bbbbbbbb-0000-4000-8000-000000000002", 4, "2024-01-01T10:05:00Z"⟩,
        ⟨"cccccccc-0000-4000-8000-000000000003", 0, "2024-01-01T10:06:00Z"⟩,
        ⟨"dddddddd-0000-4000-8000-000000000004", 0, "2024-01-01T10:07:00Z"⟩] 0).length →
      ∀ i ∈ ([⟨"aaaaaaaa-0000-4000-8000-000000000001", 4, "2024-01-01T10:00:00Z"⟩,
        ⟨"bbbbbbbb-0000-4000-8000-000000000002", 4, "2024-01-01T10:05:00Z"⟩,
        ⟨"cccccccc-0000-4000-8000-000000000003", 0, "2024-01-01T10:06:00Z"⟩,
        ⟨"dddddddd-0000-4000-8000-000000000004", 0, "2024-01-01T10:07:00Z"⟩] :
        List IssueInfo),
        0 < finalDisplay [⟨"aaaaaaaa-0000-4000-8000-000000000001", 4, "2024-01-01T10:00:00Z"⟩,
        ⟨"bbbbbbbb-0000-4000-8000-000000000002", 4, "2024-01-01T10:05:00Z"⟩,
        ⟨"cccccccc-0000-4000-8000-000000000003", 0, "2024-01-01T10:06:00Z"⟩,
        ⟨"dddddddd-0000-4000-8000-000000000004", 0, "2024-01-01T10:07:00Z"⟩] i)) :=
  ⟨⟨by decide, by decide⟩,
   C2_display_numbers_distinct _ (by decide) (by decide)⟩

/-- C3 counterexample: on a disk holding every managed path where both
README files carry user-modified content, executing with empty decisions and
force = true leaves the files untouched, and the second plan still lists
both README files in toReset (force applies only to restores, not resets),
while toCreate and toRestore are empty. -/
theorem C3_reset_not_emptied_by_force :
    ((execute_reconciliation "t1"
        [("issues/", .directory), ("docs/", .directory), ("assets/", .directory),
         ("README.md", .file "user modified"), ("templates/", .directory),
         ("templates/issues/", .directory), ("templates/docs/", .directory),
         ("templates/README.md", .file "also modified")]
        (some (create_manifest "t0")) ⟨[], []⟩ true).map
      (fun r => ((build_reconciliation_plan r.1 (some r.2.1)).to_reset.map
        (fun (f : FileInfo) => f.path),
        (build_reconciliation_plan r.1 (some r.2.1)).to_create.length,
        (build_reconciliation_plan r.1 (some r.2.1)).to_restore.length))) =
      some (["README.md", "templates/README.md"], 0, 0) := by
  decide

/-- C3 (amended): executing reconciliation with empty decisions and force =
true always succeeds, and a second plan built from the resulting disk and
manifest has empty toCreate and toRestore buckets; the toReset bucket is not
emptied in general, as the counterexample shows. -/
theorem C3_force_stabilizes_create_restore (now : String) (disk : Disk)
    (manifest0 : Option CentyManifest) :
    ∃ d mf res,
      execute_reconciliation now disk manifest0 ⟨[], []⟩ true = some (d, mf, res) ∧
      (build_reconciliation_plan d (some mf)).to_create = [] ∧
      (build_reconciliation_plan d (some mf)).to_restore = [] := by
  have hPc : (build_reconciliation_plan disk manifest0).to_create =
      (buildCore disk manifest0 get_managed_files emptyPlan).to_create := rfl
  have hPr : (build_reconciliation_plan disk manifest0).to_restore =
      (buildCore disk manifest0 get_managed_files emptyPlan).to_restore := rfl
  obtain ⟨hpc, hpr, hps, hpu⟩ :=
    buildCore_props disk manifest0 get_managed_files emptyPlan
  have hckeys : ∀ fi ∈ (build_reconciliation_plan disk manifest0).to_create,
      (get_managed_files.lookup fi.path).isSome := by
    intro fi hfi
    rcases hpc fi (hPc ▸ hfi) with h | ⟨hk, _⟩
    · exact absurd h (by simp [emptyPlan])
    · exact lookup_isSome_of_mem_fst hk
  have hrkeys : ∀ fi ∈ (build_reconciliation_plan disk manifest0).to_restore,
      (get_managed_files.lookup fi.path).isSome := by
    intro fi hfi
    rcases hpr fi (hPr ▸ hfi) with h | ⟨hk, _⟩
    · exact absurd h (by simp [emptyPlan])
    · exact lookup_isSome_of_mem_fst hk
  obtain ⟨d1, m1, created1, hC, hCmono, hCcont⟩ :=
    processCreates_spec now (build_reconciliation_plan disk manifest0).to_create disk
      (manifest0.getD (create_manifest now)) [] hckeys
  obtain ⟨d2, m2, r1, s1, hR, hRmono, hRcont⟩ :=
    processRestores_force_spec now ⟨[], []⟩
      (build_reconciliation_plan disk manifest0).to_restore d1 m1 [] [] hrkeys
  obtain ⟨m3, s2, hS⟩ :=
    processResets_empty now get_managed_files []
      (build_reconciliation_plan disk manifest0).to_reset d2 m2 [] s1
  have hall : ∀ pt ∈ get_managed_files, diskContains d2 pt.1 = true := by
    intro pt hpt
    have hcov := buildCore_cover disk manifest0 get_managed_files emptyPlan pt hpt
    rcases List.mem_map.mp hcov with ⟨fi, hfi, hfip⟩
    rw [← hfip]
    rcases List.mem_append.mp hfi with h3 | hd
    · rcases List.mem_append.mp h3 with h2 | hc
      · rcases List.mem_append.mp h2 with ha | hb
        · exact hRmono fi.path (hCcont fi (by rw [hPc]; exact ha))
        · exact hRcont fi (by rw [hPr]; exact hb)
      · rcases hps fi hc with h | h
        · exact absurd h (by simp [emptyPlan])
        · exact hRmono fi.path (hCmono fi.path h)
    · rcases hpu fi hd with h | h
      · exact absurd h (by simp [emptyPlan])
      · exact hRmono fi.path (hCmono fi.path h)
  have hexec : execute_reconciliation now disk manifest0 ⟨[], []⟩ true =
      some (d2,
        write_manifest (processUpToDate now get_managed_files
          (build_reconciliation_plan disk manifest0).up_to_date m3),
        { created := created1, restored := r1, reset := [], skipped := s2,
          manifest := write_manifest (processUpToDate now get_managed_files
            (build_reconciliation_plan disk manifest0).up_to_date m3) }) := by
    simp only [execute_reconciliation, hC, hR, hS]
  refine ⟨d2, _, _, hexec, ?_, ?_⟩
  · exact (buildCore_stable d2 (some _) get_managed_files emptyPlan hall).1
  · exact (buildCore_stable d2 (some _) get_managed_files emptyPlan hall).2

/-- C4 counterexample: two issues share display number 4 with equal
createdAt; the one whose folder name is smaller in string order ("aaaa...")
was scanned second. The claim says the tie is broken by folder-name
comparison, so "aaaa..." should keep the number; the code keeps the
first-scanned issue ("bbbb...") instead and reassigns "aaaa..." to 5. -/
theorem C4_tie_not_broken_by_folder_name :
    reconcile_display_numbers
      [⟨"bbbbbbbb-e29b-41d4-a716-446655440001", 4, "2024-01-01T10:00:00Z"⟩,
       ⟨"aaaaaaaa-e29b-41d4-a716-446655440001", 4, "2024-01-01T10:00:00Z"⟩] =
      [("aaaaaaaa-e29b-41d4-a716-446655440001", 5)] ∧
    ("aaaaaaaa-e29b-41d4-a716-446655440001" : String) <
      "bbbbbbbb-e29b-41d4-a716-446655440001" := by
  constructor
  · decide
  · exact lt_of_le_of_ne (charListLe_le (by decide)) (by decide)

/-- C4 (amended): in every group of two or more issues sharing a display
number d greater than 0, the issue that keeps d is the first, in folder scan
order, among those with minimal createdAt (the stable sort preserves scan
order on ties; folder names are not consulted); every other member of the
group is reassigned. -/
theorem C4_oldest_keeps_ties_by_scan_order (issues : List IssueInfo)
    (hf : (issues.map (fun i => i.folder_name)).Nodup)
    (d : Nat) (hd : d ≠ 0) (h2 : 2 ≤ (groupOf issues d).length) :
    ∃ k ∈ groupOf issues d,
      (∀ y ∈ groupOf issues d, k.created_at ≤ y.created_at) ∧
      (∃ pre post, groupOf issues d = pre ++ k :: post ∧
        ∀ y ∈ pre, ¬ (y.created_at ≤ k.created_at)) ∧
      (reconcile_display_numbers issues).lookup k.folder_name = none ∧
      (∀ j ∈ groupOf issues d, j ≠ k →
        (reconcile_display_numbers issues).lookup j.folder_name ≠ none) := by
  obtain ⟨k, hfm, hnone, hothers⟩ := reconcile_kept issues hf d hd h2
  refine ⟨k, firstMinBy_mem _ _ _ hfm, ?_, ?_, hnone, hothers⟩
  · intro y hy
    have := firstMinBy_min createdLe createdLe_total createdLe_trans _ _ hfm y hy
    exact charListLe_le this
  · obtain ⟨l1, l2, heq, hgt⟩ := firstMinBy_earliest createdLe _ _ hfm
    refine ⟨l1, l2, heq, ?_⟩
    intro y hy
    have := hgt y hy
    intro hle
    rw [show createdLe y k = charListLe y.created_at.data k.created_at.data from rfl,
      le_charListLe hle] at this
    simp at this

theorem C4_oldest_keeps_ties_by_scan_order_witness :
    ((([⟨"aaaaaaaa-0000-4000-8000-000000000011", 7, "2024-02-02T00:00:00Z"⟩,
        ⟨"bbbbbbbb-0000-4000-8000-000000000012", 7, "2024-01-01T00:00:00Z"⟩,
        ⟨"cccccccc-0000-4000-8000-000000000013", 1, "2024-03-03T00:00:00Z"⟩] :
        List IssueInfo).map (fun i => i.folder_name)).Nodup ∧
     (7 : Nat) ≠ 0 ∧
     2 ≤ (groupOf [⟨"aaaaaaaa-0000-4000-8000-000000000011", 7, "2024-02-02T00:00:00Z"⟩,
        ⟨"bbbbbbbb-0000-4000-8000-000000000012", 7, "2024-01-01T00:00:00Z"⟩,
        ⟨"cccccccc-0000-4000-8000-000000000013", 1, "2024-03-03T00:00:00Z"⟩] 7).length) ∧
    (∃ k ∈ groupOf [⟨"aaaaaaaa-0000-4000-8000-000000000011", 7, "2024-02-02T00:00:00Z"⟩,
        ⟨"bbbbbbbb-0000-4000-8000-000000000012", 7, "2024-01-01T00:00:00Z"⟩,
        ⟨"cccccccc-0000-4000-8000-000000000013", 1, "2024-03-03T00:00:00Z"⟩] 7,
      (∀ y ∈ groupOf [⟨"aaaaaaaa-0000-4000-8000-000000000011", 7, "2024-02-02T00:00:00Z"⟩,
        ⟨"bbbbbbbb-0000-4000-8000-000000000012", 7, "2024-01-01T00:00:00Z"⟩,
        ⟨"cccccccc-0000-4000-8000-000000000013", 1, "2024-03-03T00:00:00Z"⟩] 7,
        k.created_at ≤ y.created_at) ∧
      (∃ pre post, groupOf [⟨"aaaaaaaa-0000-4000-8000-000000000011", 7, "2024-02-02T00:00:00Z"⟩,
        ⟨"bbbbbbbb-0000-4000-8000-000000000012", 7, "2024-01-01T00:00:00Z"⟩,
        ⟨"cccccccc-0000-4000-8000-000000000013", 1, "2024-03-03T00:00:00Z"⟩] 7 =
          pre ++ k :: post ∧
        ∀ y ∈ pre, ¬ (y.created_at ≤ k.created_at)) ∧
      (reconcile_display_numbers [⟨"aaaaaaaa-0000-4000-8000-000000000011", 7, "2024-02-02T00:00:00Z"⟩,
        ⟨"bbbbbbbb-0000-4000-8000-000000000012", 7, "2024-01-01T00:00:00Z"⟩,
        ⟨"cccccccc-0000-4000-8000-000000000013", 1, "2024-03-03T00:00:00Z"⟩]).lookup
          k.folder_name = none ∧
      (∀ j ∈ groupOf [⟨"aaaaaaaa-0000-4000-8000-000000000011", 7, "2024-02-02T00:00:00Z"⟩,
        ⟨"bbbbbbbb-0000-4000-8000-000000000012", 7, "2024-01-01T00:00:00Z"⟩,
        ⟨"cccccccc-0000-4000-8000-000000000013", 1, "2024-03-03T00:00:00Z"⟩] 7, j ≠ k →
        (reconcile_display_numbers [⟨"aaaaaaaa-0000-4000-8000-000000000011", 7, "2024-02-02T00:00:00Z"⟩,
        ⟨"bbbbbbbb-0000-4000-8000-000000000012", 7, "2024-01-01T00:00:00Z"⟩,
        ⟨"cccccccc-0000-4000-8000-000000000013", 1, "2024-03-03T00:00:00Z"⟩]).lookup
          j.folder_name ≠ none)) :=
  ⟨⟨by decide, by decide, by decide⟩,
   C4_oldest_keeps_ties_by_scan_order _ (by decide) 7 (by decide) (by decide)⟩

/-- C5: whenever a migration step fails, migrate leaves the stored config
version unchanged, reports success = false, and its operation trace shows the
forward operations of the applied prefix, the failing forward operation, and
then the opposite operation of each applied step in reverse order; the config
version is changed (to the target) only on a fully successful run. -/
theorem C5_failed_migration_rolls_back (migrations : List (Migration σ))
    (config_version : Option String) (target : SemVer) (st : σ)
    (out : MigrateOutcome σ)
    (h : migrate migrations config_version target st = some out) :
    (out.result.success = false →
      out.config_version = config_version ∧
      ∃ (direction : MigrationDirection) (pre : List (Migration σ))
        (mfail : Migration σ),
        out.trace = pre.map (fwdEvent direction) ++ [fwdEvent direction mfail] ++
          pre.reverse.map (bwdEvent direction)) ∧
    (out.config_version ≠ config_version →
      out.result.success = true ∧ out.config_version = some target.str) := by
  simp only [migrate] at h
  split at h
  · exact absurd h (by simp)
  rename_i current hcv
  cases hpath : get_migration_path migrations current target with
  | none => rw [hpath] at h; exact absurd h (by simp)
  | some sd =>
    rw [hpath] at h
    obtain ⟨steps, direction⟩ := sd
    dsimp only at h
    by_cases hemp : steps.isEmpty
    · rw [if_pos hemp] at h
      simp only [Option.some.injEq] at h
      subst h
      exact ⟨fun hf => absurd hf (by simp), fun hne => absurd rfl hne⟩
    · rw [if_neg hemp] at h
      cases hloop : applyLoop direction steps st [] [] with
      | mk st2 rest =>
        obtain ⟨trace2, exc⟩ := rest
        cases exc with
        | error mfail =>
          rw [hloop] at h
          dsimp only at h
          simp only [Option.some.injEq] at h
          subst h
          refine ⟨fun _ => ⟨rfl, ?_⟩, fun hne => absurd rfl hne⟩
          obtain ⟨pre, post, hsteps, htrace⟩ :=
            applyLoop_err direction steps st [] [] st2 trace2 mfail hloop
          refine ⟨direction, pre, mfail, ?_⟩
          rw [htrace]
          simp
        | ok applied =>
          rw [hloop] at h
          dsimp only at h
          simp only [Option.some.injEq] at h
          subst h
          exact ⟨fun hf => absurd hf (by simp), fun _ => ⟨rfl, rfl⟩⟩

set_option maxRecDepth 40000 in
theorem C5_failed_migration_rolls_back_witness :
    migrate c5migs none ⟨0, 2, 0⟩ ([] : List String) = some c5out ∧
    ((c5out.result.success = false →
      c5out.config_version = none ∧
      ∃ (direction : MigrationDirection) (pre : List (Migration (List String)))
        (mfail : Migration (List String)),
        c5out.trace = pre.map (fwdEvent direction) ++ [fwdEvent direction mfail] ++
          pre.reverse.map (bwdEvent direction)) ∧
    (c5out.config_version ≠ none →
      c5out.result.success = true ∧
      c5out.config_version = some (SemVer.str ⟨0, 2, 0⟩))) :=
  ⟨by simp [migrate, get_migration_path, pathUp, applyLoop, rollbackAll, c5migs, c5out,
      SemVer.lt, SemVer.str, SemVer.toChars, natToChars, digitChar, migration_name,
      opOf, rollbackOp, fwdEvent, bwdEvent],
   C5_failed_migration_rolls_back c5migs none ⟨0, 2, 0⟩ [] c5out
     (by simp [migrate, get_migration_path, pathUp, applyLoop, rollbackAll, c5migs, c5out,
        SemVer.lt, SemVer.str, SemVer.toChars, natToChars, digitChar, migration_name,
        opOf, rollbackOp, fwdEvent, bwdEvent])⟩

/-- C6 (code bug): the folder filter of list_issues accepts exactly the names
that parse as u32, so a uuid-named issue folder, which is a valid issue folder
per is_valid_issue_folder (and the only kind create_issue produces), is
silently skipped by listing, while a five-digit name that is not a valid issue
folder is accepted. -/
theorem C6_list_filter_diverges_from_folder_validity :
    is_valid_issue_folder "550e8400-e29b-41d4-a716-446655440000" = true ∧
    list_issues_accepts "550e8400-e29b-41d4-a716-446655440000" = false ∧
    is_valid_issue_folder "0001" = true ∧
    list_issues_accepts "0001" = true ∧
    is_valid_issue_folder "12345" = false ∧
    list_issues_accepts "12345" = true := by
  decide

/-- C7 (code bug): the metadata written back by update_issue is rebuilt from
the flat view, which has already discarded the stored display number; an
update that only changes the status therefore loses a stored display number
of 5 (the written value is the field default 0). -/
theorem C7_update_drops_display_number :
    flattenMetadata ⟨5, "open", 2, "2024-01-01T00:00:00Z", "2024-01-01T00:00:00Z", []⟩ =
      ⟨"open", 2, "2024-01-01T00:00:00Z", "2024-01-01T00:00:00Z", []⟩ ∧
    (update_issue_metadata "2024-01-02T00:00:00Z"
        (flattenMetadata ⟨5, "open", 2, "2024-01-01T00:00:00Z", "2024-01-01T00:00:00Z", []⟩)
        (some "closed") none []).display_number = 0 ∧
    (update_issue_metadata "2024-01-02T00:00:00Z"
        (flattenMetadata ⟨5, "open", 2, "2024-01-01T00:00:00Z", "2024-01-01T00:00:00Z", []⟩)
        (some "closed") none []).status = "closed" ∧
    (⟨5, "open", 2, "2024-01-01T00:00:00Z", "2024-01-01T00:00:00Z", []⟩ :
      IssueMetadata).display_number = 5 := by
  decide

/-- C8: with no stored config and no existing issues, creating an issue
titled "Login bug" with empty description succeeds and yields display number
1, priority 2 (the default of 3 levels), status "open", issue.md exactly
"# Login bug\n", a folder name that is a textual v4 uuid, and exactly four
manifest entries under issues/<id>/, provided the incoming manifest has no
entry under that fresh prefix. -/
theorem C8_create_issue_defaults (now : String) (b : Fin 16 → Nat)
    (manifest : CentyManifest)
    (hfree : ∀ f ∈ manifest.managed_files,
      pathHasPre ("issues/" ++ generate_issue_id b ++ "/") f.path = false) :
    ∃ ci, create_issue now b none (some manifest) []
        ⟨"Login bug", "", none, none, [], none⟩ = some ci ∧
      ci.display_number = 1 ∧
      ci.metadata.priority = 2 ∧
      ci.metadata.status = "open" ∧
      ci.issue_md = "# Login bug\n" ∧
      is_uuid_v4 ci.id = true ∧
      (ci.manifest.managed_files.filter
        (fun f => pathHasPre ("issues/" ++ ci.id ++ "/") f.path)).length = 4 := by
  refine ⟨_, rfl, rfl, rfl, rfl, rfl, is_uuid_v4_generate b, ?_⟩
  have hb2 : ("issues/" ++ generate_issue_id b ++ "/" !=
      "issues/" ++ generate_issue_id b ++ "/" ++ "issue.md") = true := by
    simp only [bne_iff_ne, ne_eq]
    exact str_ne_append (by decide)
  have hb3 : ("issues/" ++ generate_issue_id b ++ "/" !=
      "issues/" ++ generate_issue_id b ++ "/" ++ "metadata.json") = true := by
    simp only [bne_iff_ne, ne_eq]
    exact str_ne_append (by decide)
  have hb4 : ("issues/" ++ generate_issue_id b ++ "/" !=
      "issues/" ++ generate_issue_id b ++ "/" ++ "assets/") = true := by
    simp only [bne_iff_ne, ne_eq]
    exact str_ne_append (by decide)
  have hb23 : ("issues/" ++ generate_issue_id b ++ "/" ++ "issue.md" !=
      "issues/" ++ generate_issue_id b ++ "/" ++ "metadata.json") = true := by
    simp only [bne_iff_ne, ne_eq]
    exact str_append_ne _ (by decide)
  have hb24 : ("issues/" ++ generate_issue_id b ++ "/" ++ "issue.md" !=
      "issues/" ++ generate_issue_id b ++ "/" ++ "assets/") = true := by
    simp only [bne_iff_ne, ne_eq]
    exact str_append_ne _ (by decide)
  have hb34 : ("issues/" ++ generate_issue_id b ++ "/" ++ "metadata.json" !=
      "issues/" ++ generate_issue_id b ++ "/" ++ "assets/") = true := by
    simp only [bne_iff_ne, ne_eq]
    exact str_append_ne _ (by decide)
  have hp1 : pathHasPre ("issues/" ++ generate_issue_id b ++ "/")
      ("issues/" ++ generate_issue_id b ++ "/") = true := pathHasPre_self _
  have hp2 : pathHasPre ("issues/" ++ generate_issue_id b ++ "/")
      ("issues/" ++ generate_issue_id b ++ "/" ++ "issue.md") = true :=
    pathHasPre_append _ _
  have hp3 : pathHasPre ("issues/" ++ generate_issue_id b ++ "/")
      ("issues/" ++ generate_issue_id b ++ "/" ++ "metadata.json") = true :=
    pathHasPre_append _ _
  have hp4 : pathHasPre ("issues/" ++ generate_issue_id b ++ "/")
      ("issues/" ++ generate_issue_id b ++ "/" ++ "assets/") = true :=
    pathHasPre_append _ _
  have hnil : (List.filter
      (fun f => pathHasPre ("issues/" ++ generate_issue_id b ++ "/") f.path)
      (List.filter (fun f => f.path != "issues/" ++ generate_issue_id b ++ "/" ++ "assets/")
        (List.filter (fun f => f.path != "issues/" ++ generate_issue_id b ++ "/" ++ "metadata.json")
          (List.filter (fun f => f.path != "issues/" ++ generate_issue_id b ++ "/" ++ "issue.md")
            (List.filter (fun f => f.path != "issues/" ++ generate_issue_id b ++ "/")
              manifest.managed_files))))) = [] := by
    apply length_filter_false
    intro f hf
    exact hfree f (List.mem_of_mem_filter (List.mem_of_mem_filter
      (List.mem_of_mem_filter (List.mem_of_mem_filter hf))))
  simp only [add_file_to_manifest, create_managed_file, List.filter_append,
    List.filter_cons, List.filter_nil, hb2, hb3, hb4, hb23, hb24, hb34,
    hp1, hp2, hp3, hp4, if_true, hnil]
  simp


theorem C8_create_issue_defaults_witness :
    (∀ f ∈ (create_manifest "t0").managed_files,
      pathHasPre ("issues/" ++ generate_issue_id (fun _ => 0) ++ "/") f.path = false) ∧
    ∃ ci, create_issue "t1" (fun _ => 0) none (some (create_manifest "t0")) []
        ⟨"Login bug", "", none, none, [], none⟩ = some ci ∧
      ci.display_number = 1 ∧
      ci.metadata.priority = 2 ∧
      ci.metadata.status = "open" ∧
      ci.issue_md = "# Login bug\n" ∧
      is_uuid_v4 ci.id = true ∧
      (ci.manifest.managed_files.filter
        (fun f => pathHasPre ("issues/" ++ ci.id ++ "/") f.path)).length = 4 :=
  ⟨by decide,
   C8_create_issue_defaults "t1" (fun _ => 0) (create_manifest "t0") (by decide)⟩

/-- C9: for every level count L at least 2 (within u32 range) and every
priority p between 1 and L, converting the label of p back to a number
recovers p, except for the documented collision: the labels normal and medium
map to the default priority (the single affected case for L at least 2 is
L = 4, p = 3, whose label medium maps to default_priority 4 = 2). -/
theorem C9_priority_label_roundtrip (L p : Nat) (hL2 : 2 ≤ L)
    (hLmax : L < U32_MOD) (hp1 : 1 ≤ p) (hpL : p ≤ L) :
    label_to_priority (priority_label p L) L = some p ∨
    (priority_label p L = "medium" ∧
      label_to_priority (priority_label p L) L = some (default_priority L)) := by
  by_cases h4 : L ≤ 4
  · interval_cases L <;> interval_cases p <;> decide
  · left
    have hL5 : 5 ≤ L := by omega
    have hlab : priority_label p L = String.mk ('P' :: natToChars p) := by
      unfold priority_label
      rw [if_neg (by omega), if_neg (by omega), if_neg (by omega),
        if_neg (by omega)]
    rw [hlab]
    have hdata : (String.mk ('P' :: natToChars p)).data = 'P' :: natToChars p := rfl
    have hlow : toLowerChars ('P' :: natToChars p) =
        'p' :: (natToChars p).map Char.toLower := by
      simp [toLowerChars, show Char.toLower 'P' = 'p' from by decide]
    unfold label_to_priority
    rw [hdata, hlow]
    rw [if_neg ?hcrit, if_neg ?hhigh, if_neg ?hmed, if_neg ?hlow2]
    case hcrit =>
      rintro (h | h)
      · exact cons_ne_of_head (by decide) h
      · exact cons_ne_of_head (by decide) h
    case hhigh => exact cons_ne_of_head (by decide)
    case hmed =>
      rintro (h | h)
      · exact cons_ne_of_head (by decide) h
      · exact cons_ne_of_head (by decide) h
    case hlow2 => exact cons_ne_of_head (by decide)
    have hstrip : stripPChar ('P' :: natToChars p) = some (natToChars p) := by
      simp [stripPChar]
    rw [hstrip]
    exact parse_u32_natToChars (by omega)

theorem C9_priority_label_roundtrip_witness :
    ((2 ≤ 3 ∧ (3 : Nat) < U32_MOD ∧ 1 ≤ 1 ∧ (1 : Nat) ≤ 3) ∧
     (label_to_priority (priority_label 1 3) 3 = some 1 ∨
      (priority_label 1 3 = "medium" ∧
        label_to_priority (priority_label 1 3) 3 = some (default_priority 3)))) ∧
    ((2 ≤ 4 ∧ (4 : Nat) < U32_MOD ∧ 1 ≤ 3 ∧ (3 : Nat) ≤ 4) ∧
     (label_to_priority (priority_label 3 4) 4 = some 3 ∨
      (priority_label 3 4 = "medium" ∧
        label_to_priority (priority_label 3 4) 4 = some (default_priority 4)))) ∧
    ((2 ≤ 9 ∧ (9 : Nat) < U32_MOD ∧ 1 ≤ 7 ∧ (7 : Nat) ≤ 9) ∧
     (label_to_priority (priority_label 7 9) 9 = some 7 ∨
      (priority_label 7 9 = "medium" ∧
        label_to_priority (priority_label 7 9) 9 = some (default_priority 9)))) :=
  ⟨⟨⟨by decide, by decide, by decide, by decide⟩,
    C9_priority_label_roundtrip 3 1 (by decide) (by decide) (by decide) (by decide)⟩,
   ⟨⟨by decide, by decide, by decide, by decide⟩,
    C9_priority_label_roundtrip 4 3 (by decide) (by decide) (by decide) (by decide)⟩,
   ⟨⟨by decide, by decide, by decide, by decide⟩,
    C9_priority_label_roundtrip 9 7 (by decide) (by decide) (by decide) (by decide)⟩⟩

/-- C10: the string case of the metadata priority deserializer migrates with
the hard-coded level count DEFAULT_PRIORITY_LEVELS = 3 and never consults the
configured level count (deserialize_priority_string takes no such input):
high maps to 1, medium and normal to 2, low to 3, and every unrecognized
label falls back to 2. -/
theorem C10_deserialize_priority_hardcoded :
    DEFAULT_PRIORITY_LEVELS = 3 ∧
    deserialize_priority_string "high" = 1 ∧
    deserialize_priority_string "medium" = 2 ∧
    deserialize_priority_string "normal" = 2 ∧
    deserialize_priority_string "low" = 3 ∧
    (∀ s : String, label_to_priority s DEFAULT_PRIORITY_LEVELS = none →
      deserialize_priority_string s = 2) := by
  refine ⟨rfl, by decide, by decide, by decide, by decide, ?_⟩
  intro s hs
  unfold deserialize_priority_string migrate_string_priority
  rw [hs]
  rfl

theorem C10_deserialize_priority_hardcoded_witness :
    (label_to_priority "unknown" DEFAULT_PRIORITY_LEVELS = none →
      deserialize_priority_string "unknown" = 2) ∧
    label_to_priority "unknown" DEFAULT_PRIORITY_LEVELS = none ∧
    deserialize_priority_string "unknown" = 2 :=
  ⟨C10_deserialize_priority_hardcoded.2.2.2.2.2 "unknown",
   by decide,
   C10_deserialize_priority_hardcoded.2.2.2.2.2 "unknown" (by decide)⟩

end Centy

